import Mathlib

/-!
rbc-twigify: a verification development of `index.js`.

The browserify transform of `index.js` is embedded as pure Lean functions.

* JavaScript strings are lists of characters (`Str`).
* JavaScript values that can reach the transform as options are the type `JSVal`.
* The process-wide `config` object is the record `Config`, passed explicitly.
* The external libraries (`html-minifier`, `twig`, `JSON.stringify`), the decoding
  `Buffer.prototype.toString`, and the two built-ins that rest on Unicode or floating-point
  tables (`String.prototype.toLowerCase`, the conversion of a number to a string) are the
  fields of an environment `Env`; the general theorems hold for every environment, and
  `sampleEnv` serves to evaluate the program.
* The other language built-ins used by the code (`indexOf`, `substring`, `replace`,
  `path.extname`, `for ... in`) are modelled by the definitions of the first section.
-/

namespace Twigify

/-! ## JavaScript values and built-ins -/

/-- A JavaScript string. -/
abbrev Str := List Char

/-- The JavaScript values the transform can be handed as options: primitives, arrays
(which may carry extra named properties) and plain objects whose properties are kept
in creation order. Numbers are restricted to integers. -/
inductive JSVal where
  | undefined : JSVal
  | null : JSVal
  | bool (b : Bool) : JSVal
  | num (n : Int) : JSVal
  | str (s : Str) : JSVal
  | arr (items : List JSVal) (props : List (Str × JSVal)) : JSVal
  | obj (props : List (Str × JSVal)) : JSVal

namespace JSVal

/-- The `typeof` operator. -/
def typeof : JSVal → Str
  | undefined => "undefined".toList
  | null => "object".toList
  | bool _ => "boolean".toList
  | num _ => "number".toList
  | str _ => "string".toList
  | arr _ _ => "object".toList
  | obj _ => "object".toList

/-- Truthiness (`ToBoolean`). -/
def truthy : JSVal → Bool
  | undefined => false
  | null => false
  | bool b => b
  | num n => n != 0
  | str s => !s.isEmpty
  | arr _ _ => true
  | obj _ => true

/-- The test `v != undefined` (loose inequality): false exactly for `undefined` and `null`. -/
def neUndefined : JSVal → Bool
  | undefined => false
  | null => false
  | _ => true

/-- The test `Object.prototype.toString.call(v) === '[object Array]'`. -/
def isArray : JSVal → Bool
  | arr _ _ => true
  | _ => false

end JSVal

/-- First value stored under `key` in a property list. -/
def lookupProp (key : Str) : List (Str × JSVal) → Option JSVal
  | [] => none
  | (k, v) :: rest => if k = key then some v else lookupProp key rest

/-- Decimal digits of a natural number, as a JavaScript string. -/
def natToStr (n : Nat) : Str := (Nat.toDigits 10 n)

/-- Value of a string of decimal digits (`none` when a character is not a digit). -/
def parseDigits : Str → Option Nat
  | [] => none
  | cs => cs.foldl (fun acc c =>
      match acc with
      | none => none
      | some n => if c.isDigit then some (10 * n + (c.toNat - 48)) else none) (some 0)

/-- An array index: the canonical decimal spelling of an integer below `2^32 - 1`. -/
def arrayIndex (s : Str) : Option Nat :=
  match parseDigits s with
  | none => none
  | some n => if natToStr n = s ∧ n < 4294967295 then some n else none

/-- Property read `v.name` / `v[name]` on a value that is not `undefined` or `null`
(every read in the source is guarded by a truthiness test). Primitives have none of
the properties the source asks for. -/
def getProp (v : JSVal) (name : Str) : JSVal :=
  match v with
  | .obj props => (lookupProp name props).getD .undefined
  | .arr items props =>
    match arrayIndex name with
    | some i => items.getD i .undefined
    | none => (lookupProp name props).getD .undefined
  | .str s =>
    match arrayIndex name with
    | some i => if h : i < s.length then .str [s.get ⟨i, h⟩] else .undefined
    | none => .undefined
  | _ => .undefined

mutual

/-- Conversion of a value to a string (`ToString`), as applied by `String.prototype.replace`
to its second argument. The conversion of a number is the argument `numberToString`. -/
def JSVal.toStr (numberToString : Int → Str) : JSVal → Str
  | .undefined => "undefined".toList
  | .null => "null".toList
  | .bool true => "true".toList
  | .bool false => "false".toList
  | .num n => numberToString n
  | .str s => s
  | .arr items _ => joinItems numberToString items
  | .obj _ => "[object Object]".toList

/-- The comma-separated join of the items of an array (`Array.prototype.join`). -/
def joinItems (numberToString : Int → Str) : List JSVal → Str
  | [] => []
  | [x] => itemStr numberToString x
  | x :: y :: rest =>
    itemStr numberToString x ++ ',' :: joinItems numberToString (y :: rest)

/-- One item of a join: `undefined` and `null` give the empty string, every other value its
conversion to a string. -/
def itemStr (numberToString : Int → Str) : JSVal → Str
  | .undefined => []
  | .null => []
  | .bool true => "true".toList
  | .bool false => "false".toList
  | .num n => numberToString n
  | .str s => s
  | .arr items _ => joinItems numberToString items
  | .obj _ => "[object Object]".toList

end

/-- Own enumerable property names in the order of `for ... in`: array-index names first, in
ascending numeric order, then the other names in creation order. -/
def ownKeys (props : List (Str × JSVal)) : List Str :=
  let keys := props.map Prod.fst
  ((keys.filterMap arrayIndex).insertionSort (· ≤ ·)).map natToStr
    ++ keys.filter (fun k => (arrayIndex k).isNone)

/-- The names visited by `for (var search in v)`. -/
def forInKeys : JSVal → List Str
  | .obj props => ownKeys props
  | .arr items props => (List.range items.length).map natToStr ++ ownKeys props
  | .str s => (List.range s.length).map natToStr
  | _ => []

/-- Scan of `String.prototype.indexOf`: `i` is the index of the head of the first argument. -/
def indexOfFrom (search : Str) : Str → Nat → Int
  | [], i => if search = [] then (i : Int) else -1
  | c :: cs, i => if search.isPrefixOf (c :: cs) then (i : Int) else indexOfFrom search cs (i + 1)

/-- The call `s.indexOf(search)`: index of the first occurrence of `search` in `s`, or `-1`. -/
def indexOf (s search : Str) : Int := indexOfFrom search s 0

/-- The call `s.substring(pos)` for `pos ≥ 0`. -/
def substring (s : Str) (pos : Int) : Str := s.drop pos.toNat

/-- Expansion of the replacement text of `String.prototype.replace` when the pattern is a
string (`GetSubstitution` with no captures): `$$` is a dollar sign, `$&` the matched text,
`$` followed by a backquote the text before the match, `$` followed by a single quote the
text after the match; every other character stands for itself. -/
def getSubstitution (matched before after : Str) : Str → Str
  | [] => []
  | [c] => [c]
  | c :: d :: rest =>
    if c = '$' then
      if d = '$' then '$' :: getSubstitution matched before after rest
      else if d = '&' then matched ++ getSubstitution matched before after rest
      else if d = Char.ofNat 96 then before ++ getSubstitution matched before after rest
      else if d = Char.ofNat 39 then after ++ getSubstitution matched before after rest
      else c :: getSubstitution matched before after (d :: rest)
    else c :: getSubstitution matched before after (d :: rest)

/-- The call `s.replace(search, replacement)` with a string pattern: the first occurrence of
`search` is replaced by the expanded replacement text. -/
def replace (s search replacement : Str) : Str :=
  let pos := indexOf s search
  if pos > -1 then
    let before := s.take pos.toNat
    let after := s.drop (pos.toNat + search.length)
    before ++ getSubstitution search before after replacement ++ after
  else s

/-- Scan of `Array.prototype.indexOf`: `i` is the index of the head of the list. -/
def arrayIndexOfFrom (x : Str) : List Str → Nat → Int
  | [], _ => -1
  | y :: ys, i => if y = x then (i : Int) else arrayIndexOfFrom x ys (i + 1)

/-- Index of the first entry of an array that is strictly equal to `x`, or `-1`
(`Array.prototype.indexOf`). -/
def arrayIndexOf (xs : List Str) (x : Str) : Int := arrayIndexOfFrom x xs 0

/-- Loop state of `path.extname`. -/
structure ExtScan where
  startDot : Int
  startPart : Int
  endPos : Int
  matchedSlash : Bool
  preDotState : Int
deriving DecidableEq

/-- The backward loop of `path.extname` (POSIX flavour): the first argument holds the
characters `path[i], path[i-1], ..., path[0]`. -/
def extnameLoop : List Char → Int → ExtScan → ExtScan
  | [], _, st => st
  | c :: rest, i, st =>
    if c = '/' then
      if !st.matchedSlash then { st with startPart := i + 1 }
      else extnameLoop rest (i - 1) st
    else
      let st1 := if st.endPos = -1 then { st with matchedSlash := false, endPos := i + 1 } else st
      let st2 :=
        if c = '.' then
          if st1.startDot = -1 then { st1 with startDot := i }
          else if st1.preDotState ≠ 1 then { st1 with preDotState := 1 }
          else st1
        else if st1.startDot ≠ -1 then { st1 with preDotState := -1 }
        else st1
      extnameLoop rest (i - 1) st2

/-- The function `path.extname` of Node.js (POSIX flavour). -/
def extname (path : Str) : Str :=
  let st := extnameLoop path.reverse ((path.length : Int) - 1)
    { startDot := -1, startPart := 0, endPos := -1, matchedSlash := true, preDotState := 0 }
  if st.startDot = -1 ∨ st.endPos = -1 ∨ st.preDotState = 0 ∨
      (st.preDotState = 1 ∧ st.startDot = st.endPos - 1 ∧ st.startDot = st.startPart + 1) then []
  else (path.drop st.startDot.toNat).take (st.endPos.toNat - st.startDot.toNat)

/-! ## The program -/

/-- A value thrown by JavaScript code: a `TypeError` raised by the language, or whatever an
external library threw. -/
inductive JSError where
  | typeError (message : Str) : JSError
  | thrown (value : JSVal) : JSError

/-- The process-wide `config` object (lines 8-30). -/
structure Config where
  extensions : JSVal
  relativePath : Bool
  replacePaths : JSVal
  minify : JSVal

/-- The initial value of `config`. -/
def config : Config where
  extensions := .arr [.str ".twig".toList, .str ".html".toList] []
  relativePath := false
  replacePaths := .null
  minify := .obj [
    ("removeComments".toList, .bool true),
    ("collapseWhitespace".toList, .bool true),
    ("conservativeCollapse".toList, .bool false),
    ("preserveLineBreaks".toList, .bool false),
    ("collapseBooleanAttributes".toList, .bool false),
    ("removeAttributeQuotes".toList, .bool true),
    ("removeRedundantAttributes".toList, .bool false),
    ("removeEmptyAttributes".toList, .bool false),
    ("removeStyleLinkTypeAttributes".toList, .bool false),
    ("removeOptionalTags".toList, .bool false),
    ("removeIgnored".toList, .bool false),
    ("removeEmptyElements".toList, .bool false),
    ("lint".toList, .bool false),
    ("keepClosingSlash".toList, .bool false),
    ("caseSensitive".toList, .bool false),
    ("minifyURLs".toList, .bool false)]

/-- A chunk of file content: a sequence of bytes. -/
abbrev Chunk := List (Fin 256)

/-- The external collaborators: `minify` of html-minifier, `twig` of twig.js (its result is
the `tokens` of the template it builds), `JSON.stringify`, the decoding
`Buffer.prototype.toString`, the method `String.prototype.toLowerCase` and the conversion of
a number to a string. The first two may throw. Of `toLowerCase` only two facts are used: on
a string of ASCII characters it lower-cases the letters `A`..`Z` and keeps every other
character, and it maps no string but the empty one to the empty string. -/
structure Env where
  minify : Str → JSVal → Except JSError Str
  twig : Str → Str → Except JSError JSVal
  stringify : JSVal → Str
  bufferToString : Chunk → Str
  toLowerCase : Str → Str
  numberToString : Int → Str
  toLowerCase_ascii : ∀ s : Str, (∀ c ∈ s, c.toNat < 128) → toLowerCase s = s.map Char.toLower
  eq_nil_of_toLowerCase : ∀ s, toLowerCase s = [] → s = []

/-- A call made to an external collaborator that does real work. -/
inductive Call where
  | minify (text : Str) (options : JSVal) : Call
  | twig (id : Str) (data : Str) : Call

/-- The call `extensions.map(function(ext) { return ext.toLowerCase(); })` on the items of an
array: an item that is not a string has no `toLowerCase` method. -/
def lowerAll (env : Env) : List JSVal → Except JSError (List Str)
  | [] => .ok []
  | .str s :: rest =>
    match lowerAll env rest with
    | .ok out => .ok (env.toLowerCase s :: out)
    | .error e => .error e
  | _ :: _ => .error (.typeError "ext.toLowerCase is not a function".toList)

/-- The function `getExtensions` (lines 39-56). Only arrays have a `map` method. -/
def getExtensions (env : Env) (cfg : Config) (options : JSVal) : Except JSError (List Str) :=
  let extensions :=
    if options.truthy then
      if options.isArray then options
      else if (getProp options "extensions".toList).truthy then getProp options "extensions".toList
      else cfg.extensions
    else cfg.extensions
  match extensions with
  | .arr items _ => lowerAll env items
  | _ => .error (.typeError "extensions.map is not a function".toList)

/-- The function `hasTwigifiableExtension` (lines 64-67). -/
def hasTwigifiableExtension (env : Env) (filename : Str) (extensions : List Str) : Bool :=
  let file_extension := env.toLowerCase (extname filename)
  decide (arrayIndexOf extensions file_extension > -1)

/-- The loop of lines 88-95 over the names `for ... in` visits: at the first name found in
`id`, `id` is cut at the occurrence, the name is replaced by its value, and the loop ends. -/
def replacePathsLoop (env : Env) (replacePaths : JSVal) (id : Str) : List Str → Str
  | [] => id
  | search :: rest =>
    let pos := indexOf id search
    if pos > -1 then
      replace (substring id pos) search
        ((getProp replacePaths search).toStr env.numberToString)
    else replacePathsLoop env replacePaths id rest

/-- Lines 73-80 of `compile`: the text is minified when `typeof config.minify == 'object'`,
then the tokenizer is called with the `id` and the text as it then stands. The result is the
`tokens` of the template, with the calls made to the minifier and the tokenizer, in order. -/
def tokenize (env : Env) (cfg : Config) (id tplString : Str) :
    List Call × Except JSError JSVal :=
  let minified : List Call × Except JSError Str :=
    if cfg.minify.typeof = "object".toList then
      ([Call.minify tplString cfg.minify], env.minify tplString cfg.minify)
    else ([], .ok tplString)
  match minified with
  | (calls, .error e) => (calls, .error e)
  | (calls, .ok tplString) => (calls ++ [Call.twig id tplString], env.twig id tplString)

/-- The function `compile` (lines 72-101), with the calls it makes to the minifier and the
tokenizer, in order. -/
def compile (env : Env) (cfg : Config) (id tplString : Str) : List Call × Except JSError Str :=
  match tokenize env cfg id tplString with
  | (calls, .error e) => (calls, .error e)
  | (calls, .ok template) =>
    let tokens := env.stringify template
    if cfg.relativePath then
      (calls,
        .ok ("Twig.twig(\x7b id: __filename, path: __dirname, data:".toList ++ tokens
          ++ ", precompiled: true, allowInlineIncludes: true \x7d)".toList))
    else
      let id :=
        if cfg.replacePaths.truthy then
          replacePathsLoop env cfg.replacePaths id (forInKeys cfg.replacePaths)
        else id
      (calls,
        .ok ("Twig.twig(\x7b id: \"".toList ++ id ++ "\", data:".toList ++ tokens
          ++ ", precompiled: true, allowInlineIncludes: true \x7d)".toList))

/-- The function `process` (lines 106-108). -/
def process (source : Str) : Str :=
  "\nmodule.exports = ".toList ++ source ++ ";".toList

/-- What a stream hands to its consumer as one chunk: the bytes it was given, or a text it
pushed. -/
inductive Output where
  | bytes (chunk : Chunk) : Output
  | text (s : Str) : Output

/-- What a stream does that its consumer observes: a chunk of output, an `error` event, or
normal completion. -/
inductive Event where
  | data (o : Output) : Event
  | error (e : JSError) : Event
  | finished : Event

/-- The two streams `twigifyTransform` returns: `through()`, which forwards every chunk, and
`through(push, end)` with the captured `file` and the `buffers` collected so far. -/
inductive Stream where
  | passThrough : Stream
  | twigify (file : Str) (buffers : List Chunk) : Stream

/-- The function `push` (lines 159-162): the chunk is appended to `buffers`. -/
def push (buffers : List Chunk) (chunk : Chunk) : List Chunk := buffers ++ [chunk]

/-- The function `end` (lines 164-176), run at end of input with the `config` of that moment. -/
def end_ (env : Env) (cfg : Config) (file : Str) (buffers : List Chunk) :
    List Call × List Event :=
  let tplString := env.bufferToString buffers.flatten
  match compile env cfg file tplString with
  | (calls, .error e) => (calls, [Event.error e])
  | (calls, .ok compiledTwig) => (calls, [Event.data (.text (process compiledTwig)), Event.finished])

/-- One chunk written to a stream: the stream afterwards and what it emits. -/
def Stream.write : Stream → Chunk → Stream × List Event
  | .passThrough, chunk => (.passThrough, [Event.data (.bytes chunk)])
  | .twigify file buffers, chunk => (.twigify file (push buffers chunk), [])

/-- End of input on a stream: the external calls made and what the stream emits. -/
def Stream.finish (env : Env) (cfg : Config) : Stream → List Call × List Event
  | .passThrough => ([], [Event.finished])
  | .twigify file buffers => end_ env cfg file buffers

/-- The chunks are written in order: the stream afterwards and everything emitted meanwhile. -/
def Stream.writeAll : Stream → List Chunk → Stream × List Event
  | s, [] => (s, [])
  | s, chunk :: rest =>
    ((Stream.writeAll (s.write chunk).1 rest).1,
      (s.write chunk).2 ++ (Stream.writeAll (s.write chunk).1 rest).2)

/-- A whole run: the chunks are written in order, then input ends, with the `config` of that
moment. The result is the external calls made and everything emitted, in order. -/
def Stream.run (env : Env) (cfg : Config) (s : Stream) (chunks : List Chunk) :
    List Call × List Event :=
  (((s.writeAll chunks).1.finish env cfg).1,
    (s.writeAll chunks).2 ++ ((s.writeAll chunks).1.finish env cfg).2)

/-- The function `twigifyTransform` (lines 134-179) for the captured `params`: the `config`
it leaves behind and the stream it returns, or the exception it throws. -/
def twigifyTransform (env : Env) (cfg : Config) (params : JSVal) (file : Str) :
    Except JSError (Config × Stream) :=
  let params := if !params.truthy then JSVal.obj [] else params
  match getExtensions env cfg (getProp params "extensions".toList) with
  | .error e => .error e
  | .ok ext =>
    if !hasTwigifiableExtension env file ext then .ok (cfg, .passThrough)
    else
      let cfg1 :=
        if (getProp params "minify".toList).neUndefined then
          { cfg with minify := getProp params "minify".toList }
        else cfg
      let cfg2 :=
        if (getProp params "relativePath".toList).neUndefined then
          { cfg1 with relativePath := (getProp params "relativePath".toList).truthy }
        else cfg1
      let cfg3 :=
        if (getProp params "replacePaths".toList).typeof = "object".toList then
          { cfg2 with replacePaths := getProp params "replacePaths".toList }
        else cfg2
      .ok (cfg3, .twigify file [])

/-- What `module.exports(file, params)` returns: the function `twigifyTransform` with the
`params` it has captured, or the result of calling it at once. -/
inductive Exported where
  | transform (params : JSVal) : Exported
  | stream (result : Except JSError (Config × Stream)) : Exported

/-- The exported function (lines 122-189): a first argument that is not a string is taken as
the options and the transform function is returned; a string is taken as the file and the
transform is called on it with `params`. -/
def moduleExports (env : Env) (cfg : Config) (file params : JSVal) : Exported :=
  match file with
  | .str f => .stream (twigifyTransform env cfg params f)
  | options => .transform options

/-- The call `t(file)` of a value `t` returned by `module.exports`, with the `config` of that
moment. A stream is not a function. -/
def Exported.call (env : Env) (cfg : Config) :
    Exported → Str → Except JSError (Config × Stream)
  | .transform params, file => twigifyTransform env cfg params file
  | .stream _, _ => .error (.typeError "t is not a function".toList)

/-- The `config` after a sequence of invocations of the transform, each given by its options
and its file, starting from `cfg`. An invocation that throws does so before it writes. -/
def runInvocations (env : Env) (cfg : Config) : List (JSVal × Str) → Config
  | [] => cfg
  | (params, file) :: rest =>
    match twigifyTransform env cfg params file with
    | .ok (next, _) => runInvocations env next rest
    | .error _ => runInvocations env cfg rest

/-! ## The extension as the specification words it -/

/-- The final path segment, in the words of the specification: what follows the last `/`. -/
def finalSegment (path : Str) : Str :=
  (path.reverse.takeWhile (fun c => c != '/')).reverse

/-- Everything from the last `.` of a segment, that dot included; empty when there is none. -/
def fromLastDot (segment : Str) : Str :=
  if '.' ∈ segment then '.' :: (segment.reverse.takeWhile (fun c => c != '.')).reverse else []

/-- The extension in the words of the specification: everything from the last `.` in the
final path segment, lower-cased, and the empty string when that segment has no `.`. -/
def statedExtension (env : Env) (path : Str) : Str :=
  env.toLowerCase (fromLastDot (finalSegment path))

/-! ## A small environment for evaluating the program -/

/-- A toy minifier: it rejects a text with a `<` and no `>`, and otherwise drops the blanks. -/
def sampleMinify (text : Str) (_options : JSVal) : Except JSError Str :=
  if '<' ∈ text ∧ '>' ∉ text then .error (.thrown (.str "Parse Error".toList))
  else .ok (text.filter (fun c => c != ' '))

/-- A toy tokenizer: it rejects a text with an opening brace and no closing brace, and
otherwise gives one raw token holding the text. -/
def sampleTwig (_id : Str) (data : Str) : Except JSError JSVal :=
  if Char.ofNat 123 ∈ data ∧ Char.ofNat 125 ∉ data then
    .error (.thrown (.str "Unable to find closing bracket".toList))
  else .ok (.arr [.str data] [])

/-- A toy conversion of a number to a string: its decimal digits. -/
def sampleNumberToString (n : Int) : Str :=
  if n < 0 then '-' :: natToStr n.natAbs else natToStr n.toNat

/-- A toy `toLowerCase`: the letters `A`..`Z` are lower-cased, every other character is kept. -/
def sampleToLowerCase (s : Str) : Str := s.map Char.toLower

/-- A toy environment: the two toy libraries, a serializer that writes a value between square
brackets, a decoder that reads every byte as one character, and the two toy built-ins. -/
def sampleEnv : Env where
  minify := sampleMinify
  twig := sampleTwig
  stringify := fun v => "[".toList ++ v.toStr sampleNumberToString ++ "]".toList
  bufferToString := fun bytes => bytes.map (fun b => Char.ofNat b.val)
  toLowerCase := sampleToLowerCase
  numberToString := sampleNumberToString
  toLowerCase_ascii := fun _ _ => rfl
  eq_nil_of_toLowerCase := fun _ h => List.map_eq_nil_iff.1 h

/-! ## Extension matching -/

theorem toLowerCase_nil (env : Env) : env.toLowerCase [] = [] :=
  env.toLowerCase_ascii [] (fun _ h => absurd h (List.not_mem_nil _))

theorem lowerAll_strs {env : Env} (E : List Str) : lowerAll env (E.map JSVal.str) = .ok (E.map env.toLowerCase) := by
  induction E with
  | nil => rfl
  | cons e rest ih => simp [lowerAll, ih]

theorem arrayIndexOfFrom_gt (x : Str) (xs : List Str) :
    ∀ i : Nat, arrayIndexOfFrom x xs i > -1 ↔ x ∈ xs := by
  induction xs with
  | nil => intro i; simp [arrayIndexOfFrom]
  | cons y ys ih =>
    intro i
    unfold arrayIndexOfFrom
    by_cases h : y = x
    · subst h
      simp only [↓reduceIte, List.mem_cons, true_or, iff_true]
      omega
    · have h2 : ¬ x = y := fun e => h e.symm
      simp only [h, ↓reduceIte, ih, List.mem_cons, h2, false_or]

theorem hasTwigifiableExtension_eq (p : Str) (exts : List Str) :
    hasTwigifiableExtension env p exts = decide (env.toLowerCase (extname p) ∈ exts) := by
  unfold hasTwigifiableExtension arrayIndexOf
  simp only [arrayIndexOfFrom_gt]

theorem getExtensions_arr {env : Env} (cfg : Config) (E : List Str) (props : List (Str × JSVal)) :
    getExtensions env cfg (.arr (E.map JSVal.str) props) = .ok (E.map env.toLowerCase) := by
  simp [getExtensions, JSVal.truthy, JSVal.isArray, lowerAll_strs]

/-! ## `indexOf`, `replace` and the `replacePaths` loop -/

theorem indexOfFrom_absent (k : Str) :
    ∀ (s : Str) (i : Nat), ¬ k <:+: s → indexOfFrom k s i = -1 := by
  intro s
  induction s with
  | nil =>
    intro i h
    have hk : k ≠ [] := by
      rintro rfl
      exact h List.nil_infix
    simp [indexOfFrom, hk]
  | cons c cs ih =>
    intro i h
    have h1 : ¬ k <+: c :: cs := fun hp => h hp.isInfix
    have h2 : ¬ k <:+: cs := fun hi => h (hi.trans (List.suffix_cons c cs).isInfix)
    simp only [indexOfFrom, List.isPrefixOf_iff_prefix, h1, ↓reduceIte]
    exact ih (i + 1) h2

theorem indexOfFrom_first (k : Str) :
    ∀ (a rest : Str) (i : Nat),
      (∀ b c, a ++ k ++ rest = b ++ k ++ c → a.length ≤ b.length) →
      indexOfFrom k (a ++ k ++ rest) i = (i : Int) + a.length := by
  intro a
  induction a with
  | nil =>
    intro rest i _
    cases hs : ([] ++ k ++ rest) with
    | nil =>
      have hk : k = [] := by
        have := congrArg List.length hs
        simp at this
        exact this.1
      simp [indexOfFrom, hk]
    | cons c cs =>
      have hp : k <+: c :: cs := by
        rw [← hs]; simp
      simp [indexOfFrom, List.isPrefixOf_iff_prefix, hp]
  | cons x a ih =>
    intro rest i hmin
    have hnp : ¬ k <+: x :: (a ++ k ++ rest) := by
      rintro ⟨c, hc⟩
      have := hmin [] c (by simpa using hc.symm)
      simp at this
    have hmin2 : ∀ b c, a ++ k ++ rest = b ++ k ++ c → a.length ≤ b.length := by
      intro b c hbc
      have := hmin (x :: b) c (by simp [hbc])
      simpa using this
    have : (x :: a) ++ k ++ rest = x :: (a ++ k ++ rest) := by simp
    rw [this]
    simp only [indexOfFrom, List.isPrefixOf_iff_prefix, hnp, ↓reduceIte]
    rw [ih rest (i + 1) hmin2]
    simp
    omega

theorem indexOf_absent (s k : Str) (h : ¬ k <:+: s) : indexOf s k = -1 :=
  indexOfFrom_absent k s 0 h

theorem indexOf_first (a k rest : Str)
    (hmin : ∀ b c, a ++ k ++ rest = b ++ k ++ c → a.length ≤ b.length) :
    indexOf (a ++ k ++ rest) k = a.length := by
  unfold indexOf
  rw [indexOfFrom_first k a rest 0 hmin]
  simp

theorem getSubstitution_of_no_dollar (matched before after : Str) :
    ∀ v : Str, '$' ∉ v → getSubstitution matched before after v = v := by
  intro v
  induction v using getSubstitution.induct matched before after with
  | case1 => intro _; rfl
  | case2 c => intro _; rfl
  | case3 => intro h; simp at h
  | case4 => intro h; simp at h
  | case5 => intro h; simp at h
  | case6 => intro h; simp at h
  | case7 => intro h; simp at h
  | case8 c d rest hc ih =>
    intro h
    have h2 : '$' ∉ d :: rest := fun hm => h (List.mem_cons_of_mem _ hm)
    rw [getSubstitution, if_neg hc, ih h2]

theorem replace_at_head (k rest v : Str) :
    replace (k ++ rest) k v = getSubstitution k [] rest v ++ rest := by
  have h0 : indexOf (k ++ rest) k = 0 := by
    have := indexOf_first [] k rest (fun b c _ => Nat.zero_le _)
    simpa using this
  unfold replace
  simp [h0]

theorem ownKeys_of_no_index (props : List (Str × JSVal))
    (h : ∀ kv ∈ props, arrayIndex kv.1 = none) : ownKeys props = props.map Prod.fst := by
  unfold ownKeys
  have h1 : (props.map Prod.fst).filterMap arrayIndex = [] := by
    rw [List.filterMap_eq_nil_iff]
    intro k hk
    obtain ⟨kv, hkv, rfl⟩ := List.mem_map.1 hk
    exact h kv hkv
  have h2 : (props.map Prod.fst).filter (fun k => (arrayIndex k).isNone) = props.map Prod.fst := by
    rw [List.filter_eq_self]
    intro k hk
    obtain ⟨kv, hkv, rfl⟩ := List.mem_map.1 hk
    simp [h kv hkv]
  simp only [h1, h2]
  rfl

theorem mem_ownKeys (props : List (Str × JSVal)) (k : Str) (hk : k ∈ ownKeys props) :
    k ∈ props.map Prod.fst := by
  unfold ownKeys at hk
  rcases List.mem_append.1 hk with h | h
  · obtain ⟨n, hn, rfl⟩ := List.mem_map.1 h
    have hn2 : n ∈ (props.map Prod.fst).filterMap arrayIndex :=
      (List.perm_insertionSort (· ≤ ·) _).mem_iff.1 hn
    obtain ⟨k, hk, hkn⟩ := List.mem_filterMap.1 hn2
    unfold arrayIndex at hkn
    split at hkn
    · cases hkn
    · split at hkn
      · rename_i hc
        cases hkn
        rw [hc.1]; exact hk
      · cases hkn
  · exact (List.mem_filter.1 h).1

theorem replacePathsLoop_absent {env : Env} (m : JSVal) (id : Str) :
    ∀ keys : List Str, (∀ k ∈ keys, ¬ k <:+: id) → replacePathsLoop env m id keys = id := by
  intro keys
  induction keys with
  | nil => intro _; rfl
  | cons k rest ih =>
    intro h
    have hk := indexOf_absent id k (h k (List.mem_cons_self _ _))
    simp only [replacePathsLoop, hk]
    exact ih (fun k2 hk2 => h k2 (List.mem_cons_of_mem _ hk2))

theorem replacePathsLoop_first {env : Env} (m : JSVal) (a k rest : Str)
    (hmin : ∀ b c, a ++ k ++ rest = b ++ k ++ c → a.length ≤ b.length) :
    ∀ pre post : List Str, (∀ j ∈ pre, ¬ j <:+: a ++ k ++ rest) →
      replacePathsLoop env m (a ++ k ++ rest) (pre ++ k :: post)
        = getSubstitution k [] rest ((getProp m k).toStr env.numberToString) ++ rest := by
  intro pre
  induction pre with
  | nil =>
    intro post _
    have hi := indexOf_first a k rest hmin
    simp only [List.nil_append, replacePathsLoop, hi]
    have hpos : ((a.length : Int) > -1) := by omega
    simp only [hpos, ↓reduceIte, substring, Int.toNat_ofNat]
    rw [List.append_assoc, List.drop_left, replace_at_head]
  | cons j pre ih =>
    intro post h
    have hj := indexOf_absent (a ++ k ++ rest) j (h j (List.mem_cons_self _ _))
    simp only [List.cons_append, replacePathsLoop, hj]
    exact ih post (fun j2 hj2 => h j2 (List.mem_cons_of_mem _ hj2))

theorem lookupProp_first (k : Str) (v : JSVal) :
    ∀ pre post : List (Str × JSVal), (∀ kv ∈ pre, kv.1 ≠ k) →
      lookupProp k (pre ++ (k, v) :: post) = some v := by
  intro pre
  induction pre with
  | nil => intro post _; simp [lookupProp]
  | cons kv pre ih =>
    intro post h
    obtain ⟨k1, v1⟩ := kv
    have h1 : k1 ≠ k := h (k1, v1) (List.mem_cons_self _ _)
    simp only [List.cons_append, lookupProp, h1, ↓reduceIte]
    exact ih post (fun kv2 hkv2 => h kv2 (List.mem_cons_of_mem _ hkv2))

/-! ## Code generation -/

theorem compile_of_tokenize (env : Env) (cfg : Config) (id tpl : Str) (calls : List Call)
    (template : JSVal) (hrel : cfg.relativePath = false)
    (htok : tokenize env cfg id tpl = (calls, .ok template)) :
    compile env cfg id tpl = (calls, .ok ("Twig.twig(\x7b id: \"".toList
      ++ (if cfg.replacePaths.truthy then
            replacePathsLoop env cfg.replacePaths id (forInKeys cfg.replacePaths) else id)
      ++ "\", data:".toList ++ env.stringify template
      ++ ", precompiled: true, allowInlineIncludes: true \x7d)".toList)) := by
  unfold compile
  rw [htok]
  simp only [hrel, Bool.false_eq_true, ↓reduceIte]

theorem tokenize_of_not_object (env : Env) (cfg : Config) (id tpl : Str)
    (h : cfg.minify.typeof ≠ "object".toList) :
    tokenize env cfg id tpl = ([Call.twig id tpl], env.twig id tpl) := by
  simp only [tokenize, h, ↓reduceIte, List.nil_append]

theorem tokenize_of_object (env : Env) (cfg : Config) (id tpl m : Str)
    (h : cfg.minify.typeof = "object".toList) (hm : env.minify tpl cfg.minify = .ok m) :
    tokenize env cfg id tpl
      = ([Call.minify tpl cfg.minify, Call.twig id m], env.twig id m) := by
  simp only [tokenize, h, ↓reduceIte, hm, List.singleton_append]

theorem tokenize_minify_error (env : Env) (cfg : Config) (id tpl : Str) (e : JSError)
    (h : cfg.minify.typeof = "object".toList) (hm : env.minify tpl cfg.minify = .error e) :
    tokenize env cfg id tpl = ([Call.minify tpl cfg.minify], .error e) := by
  simp only [tokenize, h, ↓reduceIte, hm]

/-! ## The transform stream -/

theorem getProp_of_falsy (params : JSVal) (name : Str) (h : params.truthy = false) :
    getProp params name = .undefined := by
  cases params with
  | undefined => rfl
  | null => rfl
  | bool b => rfl
  | num n => rfl
  | str s =>
    have hs : s = [] := by simpa [JSVal.truthy] using h
    subst hs
    simp only [getProp]
    split <;> simp
  | arr items props => simp [JSVal.truthy] at h
  | obj props => simp [JSVal.truthy] at h

theorem getProp_params (params : JSVal) (name : Str) :
    getProp (if !params.truthy then JSVal.obj [] else params) name = getProp params name := by
  cases h : params.truthy
  · simp only [Bool.not_false, ↓reduceIte, getProp_of_falsy params name h]
    rfl
  · simp

theorem twigifyTransform_ineligible {env : Env} (cfg : Config) (params : JSVal) (file : Str)
    (exts : List Str)
    (hext : getExtensions env cfg (getProp params "extensions".toList) = .ok exts)
    (hno : hasTwigifiableExtension env file exts = false) :
    twigifyTransform env cfg params file = .ok (cfg, .passThrough) := by
  unfold twigifyTransform
  simp only [getProp_params, hext, hno, Bool.not_false, ↓reduceIte]

theorem twigifyTransform_eligible {env : Env} (cfg : Config) (params : JSVal) (file : Str)
    (exts : List Str)
    (hext : getExtensions env cfg (getProp params "extensions".toList) = .ok exts)
    (hyes : hasTwigifiableExtension env file exts = true) :
    twigifyTransform env cfg params file = .ok (
      { extensions := cfg.extensions
        relativePath :=
          if (getProp params "relativePath".toList).neUndefined then
            (getProp params "relativePath".toList).truthy
          else cfg.relativePath
        replacePaths :=
          if (getProp params "replacePaths".toList).typeof = "object".toList then
            getProp params "replacePaths".toList
          else cfg.replacePaths
        minify :=
          if (getProp params "minify".toList).neUndefined then getProp params "minify".toList
          else cfg.minify },
      .twigify file []) := by
  unfold twigifyTransform
  simp only [getProp_params, hext, hyes, Bool.not_true, Bool.false_eq_true, ↓reduceIte]
  congr 2
  split <;> split <;> split <;> rfl

theorem writeAll_passThrough (chunks : List Chunk) :
    Stream.passThrough.writeAll chunks
      = (.passThrough, chunks.map (fun c => Event.data (.bytes c))) := by
  induction chunks with
  | nil => rfl
  | cons c rest ih => simp [Stream.writeAll, Stream.write, ih]

theorem writeAll_twigify (file : Str) (chunks : List Chunk) :
    ∀ buffers, (Stream.twigify file buffers).writeAll chunks
      = (.twigify file (buffers ++ chunks), []) := by
  induction chunks with
  | nil => intro b; simp [Stream.writeAll]
  | cons c rest ih => intro b; simp [Stream.writeAll, Stream.write, push, ih]

theorem run_twigify (env : Env) (cfg : Config) (file : Str) (chunks : List Chunk) :
    Stream.run env cfg (.twigify file []) chunks = end_ env cfg file chunks := by
  simp [Stream.run, writeAll_twigify, Stream.finish]

theorem compile_error_of_tokenize (env : Env) (cfg : Config) (id tpl : Str)
    (calls : List Call) (e : JSError) (h : tokenize env cfg id tpl = (calls, .error e)) :
    compile env cfg id tpl = (calls, .error e) := by
  simp only [compile, h]

theorem compile_ok_of_tokenize (env : Env) (cfg : Config) (id tpl : Str)
    (calls : List Call) (template : JSVal) (h : tokenize env cfg id tpl = (calls, .ok template)) :
    ∃ frag, compile env cfg id tpl = (calls, .ok frag) := by
  simp only [compile, h]
  split <;> exact ⟨_, rfl⟩

theorem end_of_tokenize_error (env : Env) (cfg : Config) (file : Str) (buffers : List Chunk)
    (calls : List Call) (e : JSError)
    (h : tokenize env cfg file (env.bufferToString buffers.flatten) = (calls, .error e)) :
    end_ env cfg file buffers = (calls, [Event.error e]) := by
  simp only [end_, compile_error_of_tokenize env cfg file _ calls e h]

theorem end_of_tokenize_ok (env : Env) (cfg : Config) (file : Str) (buffers : List Chunk)
    (calls : List Call) (template : JSVal)
    (h : tokenize env cfg file (env.bufferToString buffers.flatten) = (calls, .ok template)) :
    ∃ frag, end_ env cfg file buffers
      = (calls, [Event.data (.text (process frag)), Event.finished]) := by
  obtain ⟨frag, hf⟩ := compile_ok_of_tokenize env cfg file _ calls template h
  exact ⟨frag, by simp only [end_, hf]⟩

/-! ## The shared `config` across invocations -/

theorem compile_calls (env : Env) (cfg : Config) (id tpl : Str) :
    (compile env cfg id tpl).1 = (tokenize env cfg id tpl).1 := by
  unfold compile
  rcases h : tokenize env cfg id tpl with ⟨calls, r⟩
  cases r with
  | error e => rfl
  | ok template =>
    dsimp only
    split <;> rfl

theorem end_calls (env : Env) (cfg : Config) (file : Str) (buffers : List Chunk) :
    (end_ env cfg file buffers).1
      = (tokenize env cfg file (env.bufferToString buffers.flatten)).1 := by
  rw [← compile_calls]
  unfold end_
  rcases h : compile env cfg file (env.bufferToString buffers.flatten) with ⟨calls, r⟩
  cases r <;> simp only [h]

theorem tokenize_calls_of_object (env : Env) (cfg : Config) (id tpl : Str)
    (h : cfg.minify.typeof = "object".toList) :
    Call.minify tpl cfg.minify ∈ (tokenize env cfg id tpl).1 := by
  unfold tokenize
  simp only [h, ↓reduceIte]
  cases env.minify tpl cfg.minify <;> simp

theorem twigifyTransform_fields {env : Env} (cfg cfg2 : Config) (params : JSVal) (file : Str) (s : Stream)
    (h : twigifyTransform env cfg params file = .ok (cfg2, s)) :
    cfg2.extensions = cfg.extensions
      ∧ (cfg2.minify = cfg.minify
          ∨ (cfg2.minify = getProp params "minify".toList
              ∧ (getProp params "minify".toList).neUndefined = true)) := by
  unfold twigifyTransform at h
  simp only [getProp_params] at h
  split at h
  · cases h
  · split at h
    · cases h; exact ⟨rfl, Or.inl rfl⟩
    · cases h
      refine ⟨?_, ?_⟩
      · split <;> split <;> split <;> rfl
      · by_cases hm : (getProp params "minify".toList).neUndefined = true
        · right
          refine ⟨?_, hm⟩
          simp only [hm, ↓reduceIte]
          split <;> split <;> rfl
        · left
          simp only [hm, ↓reduceIte]
          split <;> split <;> rfl

theorem runInvocations_invariant {env : Env} (invs : List (JSVal × Str)) :
    ∀ cfg : Config, cfg.minify ≠ .null →
      (runInvocations env cfg invs).extensions = cfg.extensions
        ∧ (runInvocations env cfg invs).minify ≠ .null := by
  induction invs with
  | nil => intro cfg h; exact ⟨rfl, h⟩
  | cons inv rest ih =>
    intro cfg hnull
    obtain ⟨params, file⟩ := inv
    unfold runInvocations
    cases h : twigifyTransform env cfg params file with
    | error e => exact ih cfg hnull
    | ok r =>
      obtain ⟨next, s⟩ := r
      obtain ⟨hext, hmin⟩ := twigifyTransform_fields cfg next params file s h
      have hnext : next.minify ≠ .null := by
        rcases hmin with h1 | ⟨h1, h2⟩
        · rw [h1]; exact hnull
        · rw [h1]
          intro h3
          rw [h3] at h2
          cases h2
      obtain ⟨ih1, ih2⟩ := ih next hnext
      exact ⟨by rw [ih1, hext], ih2⟩

theorem getExtensions_congr {env : Env} (cfg1 cfg2 : Config) (options : JSVal)
    (h : cfg1.extensions = cfg2.extensions) :
    getExtensions env cfg1 options = getExtensions env cfg2 options := by
  unfold getExtensions
  rw [h]

theorem twigifyTransform_stream_congr {env : Env} (cfg1 cfg2 : Config) (params : JSVal) (file : Str)
    (h : cfg1.extensions = cfg2.extensions) :
    Except.map Prod.snd (twigifyTransform env cfg1 params file)
      = Except.map Prod.snd (twigifyTransform env cfg2 params file) := by
  unfold twigifyTransform
  simp only [getExtensions_congr cfg1 cfg2 _ h]
  cases getExtensions env cfg2
      (getProp (if !params.truthy then JSVal.obj [] else params) "extensions".toList) with
  | error e => rfl
  | ok ext =>
    dsimp only
    split <;> rfl

theorem mem_tokenize_calls_minify (env : Env) (cfg : Config) (id tpl t : Str) (o : JSVal)
    (h : Call.minify t o ∈ (tokenize env cfg id tpl).1) :
    cfg.minify.typeof = "object".toList ∧ o = cfg.minify := by
  unfold tokenize at h
  by_cases hobj : cfg.minify.typeof = "object".toList
  · refine ⟨hobj, ?_⟩
    simp only [hobj, ↓reduceIte] at h
    cases hm : env.minify tpl cfg.minify with
    | error e =>
      rw [hm] at h
      simp at h
      exact h.2
    | ok m =>
      rw [hm] at h
      simp at h
      exact h.2
  · simp only [hobj, ↓reduceIte] at h
    simp at h

theorem compile_id_unchanged (env : Env) (cfg : Config) (id tpl : Str) (calls : List Call)
    (template : JSVal) (hrel : cfg.relativePath = false)
    (hrp : cfg.replacePaths.truthy = false
      ∨ ∃ props, cfg.replacePaths = .obj props ∧ ∀ kv ∈ props, ¬ kv.1 <:+: id)
    (htok : tokenize env cfg id tpl = (calls, .ok template)) :
    compile env cfg id tpl = (calls, .ok ("Twig.twig(\x7b id: \"".toList ++ id
      ++ "\", data:".toList ++ env.stringify template
      ++ ", precompiled: true, allowInlineIncludes: true \x7d)".toList)) := by
  rw [compile_of_tokenize env cfg id tpl calls template hrel htok]
  have hid : (if cfg.replacePaths.truthy then
      replacePathsLoop env cfg.replacePaths id (forInKeys cfg.replacePaths) else id) = id := by
    rcases hrp with h | ⟨props, hp, hkeys⟩
    · simp only [h, Bool.false_eq_true, ↓reduceIte]
    · rw [hp]
      simp only [JSVal.truthy, ↓reduceIte, forInKeys]
      apply replacePathsLoop_absent
      intro k hk
      obtain ⟨kv, hkv, rfl⟩ := List.mem_map.1 (mem_ownKeys props k hk)
      exact hkeys kv hkv
  rw [hid]

theorem mem_tokenize_calls_twig (env : Env) (cfg : Config) (id tpl i d : Str)
    (h : Call.twig i d ∈ (tokenize env cfg id tpl).1) : i = id := by
  unfold tokenize at h
  by_cases hobj : cfg.minify.typeof = "object".toList
  · simp only [hobj, ↓reduceIte] at h
    cases hm : env.minify tpl cfg.minify with
    | error e =>
      rw [hm] at h
      simp at h
    | ok m =>
      rw [hm] at h
      simp at h
      exact h.1
  · simp only [hobj, ↓reduceIte] at h
    simp at h
    exact h.1

theorem tokenize_ok_calls_twig (env : Env) (cfg : Config) (id tpl : Str) (calls : List Call)
    (template : JSVal) (h : tokenize env cfg id tpl = (calls, .ok template)) :
    ∃ d, Call.twig id d ∈ calls := by
  unfold tokenize at h
  by_cases hobj : cfg.minify.typeof = "object".toList
  · simp only [hobj, ↓reduceIte] at h
    cases hm : env.minify tpl cfg.minify with
    | error e =>
      rw [hm] at h
      simp at h
    | ok m =>
      rw [hm] at h
      simp at h
      exact ⟨m, by rw [← h.1]; simp⟩
  · simp only [hobj, ↓reduceIte] at h
    simp at h
    exact ⟨tpl, by rw [← h.1]; simp⟩

/-! ## What `path.extname` returns -/

theorem extnameLoop_slashes (n : Nat) :
    ∀ (r : List Char) (i sd sp e pd : Int),
      extnameLoop (List.replicate n '/' ++ r) i ⟨sd, sp, e, true, pd⟩
        = extnameLoop r (i - n) ⟨sd, sp, e, true, pd⟩ := by
  induction n with
  | zero => intro r i sd sp e pd; simp
  | succ n ih =>
    intro r i sd sp e pd
    rw [List.replicate_succ, List.cons_append, extnameLoop]
    simp only [↓reduceIte, Bool.not_true, Bool.false_eq_true]
    rw [ih]
    congr 1
    push_cast
    omega

theorem extnameLoop_plain (seg : List Char) :
    ∀ (r : List Char) (i sp e pd : Int) (ms : Bool), '/' ∉ seg → '.' ∉ seg → e ≠ -1 →
      extnameLoop (seg ++ r) i ⟨-1, sp, e, ms, pd⟩
        = extnameLoop r (i - seg.length) ⟨-1, sp, e, ms, pd⟩ := by
  induction seg with
  | nil => intro r i sp e pd ms _ _ _; simp
  | cons c seg ih =>
    intro r i sp e pd ms hs hd he
    have hc1 : c ≠ '/' := fun h => hs (h ▸ List.mem_cons_self _ _)
    have hc2 : c ≠ '.' := fun h => hd (h ▸ List.mem_cons_self _ _)
    rw [List.cons_append, extnameLoop]
    simp only [hc1, hc2, he, ↓reduceIte, ne_eq, not_true_eq_false]
    rw [ih r (i - 1) sp e pd ms (fun h => hs (List.mem_cons_of_mem _ h))
      (fun h => hd (List.mem_cons_of_mem _ h)) he]
    congr 1
    simp only [List.length_cons]
    push_cast
    omega

theorem extnameLoop_stem (seg : List Char) :
    ∀ (r : List Char) (i sd sp e pd : Int) (ms : Bool), '/' ∉ seg → sd ≠ -1 → e ≠ -1 →
      extnameLoop (seg ++ r) i ⟨sd, sp, e, ms, pd⟩
        = extnameLoop r (i - seg.length)
            ⟨sd, sp, e, ms, seg.foldl (fun _ c => if c = '.' then (1 : Int) else -1) pd⟩ := by
  induction seg with
  | nil => intro r i sd sp e pd ms _ _ _; simp
  | cons c seg ih =>
    intro r i sd sp e pd ms hs hsd he
    have hc1 : c ≠ '/' := fun h => hs (h ▸ List.mem_cons_self _ _)
    rw [List.cons_append, extnameLoop]
    simp only [hc1, hsd, he, ↓reduceIte, ne_eq, not_false_eq_true, List.foldl_cons]
    have hstep : (if c = '.' then
          if pd = 1 then (⟨sd, sp, e, ms, pd⟩ : ExtScan) else ⟨sd, sp, e, ms, 1⟩
        else ⟨sd, sp, e, ms, -1⟩)
        = ⟨sd, sp, e, ms, if c = '.' then 1 else -1⟩ := by
      by_cases hc : c = '.'
      · by_cases hp : pd = 1
        · simp [hc, hp]
        · simp [hc, hp]
      · simp [hc]
    simp only [ite_not] at *
    rw [hstep, ih r (i - 1) sd sp e _ ms (fun h => hs (List.mem_cons_of_mem _ h)) hsd he]
    congr 1
    simp only [List.length_cons]
    push_cast
    omega

theorem extnameLoop_to_dot (seg r : List Char) (i sp pd : Int) (hi0 : 0 ≤ i)
    (hs : '/' ∉ seg) (hd : '.' ∉ seg) :
    extnameLoop (seg ++ '.' :: r) i ⟨-1, sp, -1, true, pd⟩
      = extnameLoop r (i - seg.length - 1) ⟨i - seg.length, sp, i + 1, false, pd⟩ := by
  have hi : i + 1 ≠ -1 := by omega
  cases seg with
  | nil =>
    rw [List.nil_append, extnameLoop]
    simp
  | cons c seg =>
    have hc1 : c ≠ '/' := fun h => hs (h ▸ List.mem_cons_self _ _)
    have hc2 : c ≠ '.' := fun h => hd (h ▸ List.mem_cons_self _ _)
    rw [List.cons_append, extnameLoop]
    simp only [hc1, hc2, ↓reduceIte, ne_eq, not_true_eq_false]
    rw [extnameLoop_plain seg _ (i - 1) sp (i + 1) pd false
      (fun h => hs (List.mem_cons_of_mem _ h)) (fun h => hd (List.mem_cons_of_mem _ h)) hi]
    rw [extnameLoop]
    simp only [hi, ↓reduceIte, List.length_cons]
    simp
    congr 1
    · omega
    · congr 1
      omega

theorem extnameLoop_stop (pre : List Char) (hpre : pre = [] ∨ ∃ p, pre = p ++ ['/'])
    (sd e pd : Int) :
    extnameLoop pre.reverse ((pre.length : Int) - 1) ⟨sd, 0, e, false, pd⟩
      = ⟨sd, pre.length, e, false, pd⟩ := by
  rcases hpre with h | ⟨p, h⟩
  · subst h
    simp [extnameLoop]
  · subst h
    simp [extnameLoop]

theorem foldl_reverse_stem (stem : List Char) :
    stem.reverse.foldl (fun _ c => if c = '.' then (1 : Int) else -1) 0
      = match stem with
        | [] => 0
        | c :: _ => if c = '.' then 1 else -1 := by
  cases stem with
  | nil => rfl
  | cons c s => simp [List.foldl_append]

theorem extname_of_dot (pre stem ext : Str) (n : Nat)
    (hpre : pre = [] ∨ ∃ p, pre = p ++ ['/']) (hs : '/' ∉ stem) (he1 : '/' ∉ ext)
    (he2 : '.' ∉ ext) :
    extname (pre ++ stem ++ '.' :: ext ++ List.replicate n '/')
      = if stem = [] ∨ (stem = ['.'] ∧ ext = []) then [] else '.' :: ext := by
  unfold extname
  have hrev : (pre ++ stem ++ '.' :: ext ++ List.replicate n '/').reverse
      = List.replicate n '/' ++ (ext.reverse ++ '.' :: (stem.reverse ++ pre.reverse)) := by
    simp [List.reverse_append, List.append_assoc]
  have hlen : ((pre ++ stem ++ '.' :: ext ++ List.replicate n '/').length : Int)
      = pre.length + stem.length + 1 + ext.length + n := by
    simp only [List.length_append, List.length_cons, List.length_replicate]
    push_cast
    ring
  rw [hrev, hlen, extnameLoop_slashes,
    extnameLoop_to_dot ext.reverse _ _ 0 0 (by omega)
      (by simpa using he1) (by simpa using he2),
    extnameLoop_stem stem.reverse _ _ _ 0 _ 0 false (by simpa using hs)
      (by simp only [List.length_reverse]; omega) (by omega)]
  have hidx : ((pre.length : Int) + stem.length + 1 + ext.length + n - 1 - n
      - ext.reverse.length - 1 - stem.reverse.length) = (pre.length : Int) - 1 := by
    simp only [List.length_reverse]
    omega
  rw [hidx, extnameLoop_stop pre hpre, foldl_reverse_stem]
  simp only [List.length_reverse]
  have h1 : ((pre.length : Int) + stem.length + 1 + ext.length + n - 1 - n - ext.length)
      = ((pre.length + stem.length : Nat) : Int) := by
    push_cast; omega
  have h2 : ((pre.length : Int) + stem.length + 1 + ext.length + n - 1 - n + 1)
      = ((pre.length + stem.length + 1 + ext.length : Nat) : Int) := by
    push_cast; omega
  rw [h1, h2]
  simp only [Int.toNat_ofNat]
  have hslice : List.take (pre.length + stem.length + 1 + ext.length - (pre.length + stem.length))
      (List.drop (pre.length + stem.length) (pre ++ stem ++ '.' :: ext ++ List.replicate n '/'))
      = '.' :: ext := by
    have hd : List.drop (pre.length + stem.length)
        (pre ++ stem ++ '.' :: ext ++ List.replicate n '/')
        = ('.' :: ext) ++ List.replicate n '/' := by
      have : pre ++ stem ++ '.' :: ext ++ List.replicate n '/'
          = (pre ++ stem) ++ (('.' :: ext) ++ List.replicate n '/') := by simp
      rw [this, ← List.length_append]
      exact List.drop_left _ _
    have hk : pre.length + stem.length + 1 + ext.length - (pre.length + stem.length)
        = ('.' :: ext).length := by
      simp only [List.length_cons]; omega
    rw [hd, hk]
    exact List.take_left _ _
  rw [hslice]
  clear hslice h1 h2 hidx hlen hrev
  cases stem with
  | nil => simp
  | cons c stem =>
    by_cases hdd : c :: stem = ['.'] ∧ ext = []
    · obtain ⟨hst, hex⟩ := hdd
      cases hst
      subst hex
      rw [if_pos, if_pos]
      · exact Or.inr ⟨rfl, rfl⟩
      · refine Or.inr (Or.inr (Or.inr ⟨by simp, ?_, ?_⟩))
        · simp
        · simp
    · rw [if_neg, if_neg]
      · intro h
        rcases h with h | h
        · cases h
        · exact hdd h
      · intro h
        rcases h with h | h | h | ⟨h1, h2, h3⟩
        · omega
        · omega
        · by_cases hc : c = '.'
          · simp [hc] at h
          · simp [hc] at h
        · apply hdd
          have hext : ext = [] := by
            apply List.eq_nil_of_length_eq_zero
            push_cast at h2
            omega
          have hstem : stem = [] := by
            apply List.eq_nil_of_length_eq_zero
            simp only [List.length_cons] at h3
            push_cast at h3
            omega
          have hc : c = '.' := by
            by_contra hc
            simp [hc] at h1
          rw [hext, hstem, hc]
          exact ⟨rfl, rfl⟩

theorem extname_of_no_dot (pre base : Str) (n : Nat)
    (hpre : pre = [] ∨ ∃ p, pre = p ++ ['/']) (hb1 : '/' ∉ base) (hb2 : '.' ∉ base)
    (hne : base = [] → pre = []) :
    extname (pre ++ base ++ List.replicate n '/') = [] := by
  unfold extname
  have hrev : (pre ++ base ++ List.replicate n '/').reverse
      = List.replicate n '/' ++ (base.reverse ++ pre.reverse) := by
    simp [List.reverse_append, List.append_assoc]
  have hlen : ((pre ++ base ++ List.replicate n '/').length : Int)
      = pre.length + base.length + n := by
    simp only [List.length_append, List.length_replicate]
    push_cast
    ring
  rw [hrev, hlen, extnameLoop_slashes]
  have hsd : (extnameLoop (base.reverse ++ pre.reverse)
      ((pre.length : Int) + base.length + n - 1 - n) ⟨-1, 0, -1, true, 0⟩).startDot = -1 := by
    cases hb : base.reverse with
    | nil =>
      have hbase : base = [] := by simpa using hb
      rw [hne hbase]
      rfl
    | cons c seg =>
      have hmem : ∀ x, x ∈ c :: seg → x ∈ base := by
        intro x hx
        rw [← hb] at hx
        exact List.mem_reverse.1 hx
      have hc1 : c ≠ '/' := fun h => hb1 (hmem c (h ▸ List.mem_cons_self _ _) |> (h ▸ ·))
      have hc2 : c ≠ '.' := fun h => hb2 (hmem c (h ▸ List.mem_cons_self _ _) |> (h ▸ ·))
      have hlb : (base.length : Int) = seg.length + 1 := by
        have := congrArg List.length hb
        simp only [List.length_reverse, List.length_cons] at this
        omega
      rw [List.cons_append, extnameLoop]
      simp only [hc1, hc2, ↓reduceIte, ne_eq, not_true_eq_false]
      rw [extnameLoop_plain seg _ _ 0 _ 0 false
        (fun h => hb1 (hmem _ (List.mem_cons_of_mem _ h)))
        (fun h => hb2 (hmem _ (List.mem_cons_of_mem _ h))) (by omega)]
      have hidx : ((pre.length : Int) + base.length + n - 1 - n - 1 - seg.length)
          = (pre.length : Int) - 1 := by omega
      rw [hidx, extnameLoop_stop pre hpre]
  rw [if_pos (Or.inl hsd)]

theorem finalSegment_append (pre base : Str) (hpre : pre = [] ∨ ∃ p, pre = p ++ ['/'])
    (hb : '/' ∉ base) : finalSegment (pre ++ base) = base := by
  unfold finalSegment
  rw [List.reverse_append, List.takeWhile_append_of_pos]
  · rcases hpre with h | ⟨p, h⟩
    · subst h; simp
    · subst h; simp
  · intro a ha
    have : a ≠ '/' := fun h => hb (h ▸ List.mem_reverse.1 ha)
    simpa using this

theorem fromLastDot_append (stem ext : Str) (he : '.' ∉ ext) :
    fromLastDot (stem ++ '.' :: ext) = '.' :: ext := by
  unfold fromLastDot
  rw [if_pos (by simp)]
  have : (stem ++ '.' :: ext).reverse = ext.reverse ++ '.' :: stem.reverse := by simp
  rw [this, List.takeWhile_append_of_pos]
  · simp
  · intro a ha
    have : a ≠ '.' := fun h => he (h ▸ List.mem_reverse.1 ha)
    simpa using this

theorem statedExtension_of_dot {env : Env} (pre stem ext : Str) (hpre : pre = [] ∨ ∃ p, pre = p ++ ['/'])
    (hs : '/' ∉ stem) (he1 : '/' ∉ ext) (he2 : '.' ∉ ext) :
    statedExtension env (pre ++ stem ++ '.' :: ext) = env.toLowerCase ('.' :: ext) := by
  unfold statedExtension
  have hb : '/' ∉ stem ++ '.' :: ext := by
    simp only [List.mem_append, List.mem_cons, not_or]
    exact ⟨hs, by decide, he1⟩
  rw [List.append_assoc, finalSegment_append pre _ hpre hb, fromLastDot_append stem ext he2]

theorem statedExtension_of_no_dot {env : Env} (pre base : Str) (hpre : pre = [] ∨ ∃ p, pre = p ++ ['/'])
    (hb1 : '/' ∉ base) (hb2 : '.' ∉ base) : statedExtension env (pre ++ base) = [] := by
  unfold statedExtension
  rw [finalSegment_append pre base hpre hb1]
  unfold fromLastDot
  rw [if_neg hb2]
  exact toLowerCase_nil env

theorem twigifyTransform_guards (env : Env) (cfg : Config) (params : JSVal) (file : Str)
    (exts : List Str)
    (hext : getExtensions env cfg (getProp params "extensions".toList) = .ok exts)
    (hyes : hasTwigifiableExtension env file exts = true) :
    ∃ cfg2, twigifyTransform env cfg params file = .ok (cfg2, .twigify file [])
      ∧ cfg2.extensions = cfg.extensions
      ∧ (getProp params "minify".toList ≠ .undefined → getProp params "minify".toList ≠ .null →
          cfg2.minify = getProp params "minify".toList)
      ∧ (getProp params "minify".toList = .undefined ∨ getProp params "minify".toList = .null →
          cfg2.minify = cfg.minify)
      ∧ (getProp params "relativePath".toList ≠ .undefined →
          getProp params "relativePath".toList ≠ .null →
          cfg2.relativePath = (getProp params "relativePath".toList).truthy)
      ∧ (getProp params "relativePath".toList = .undefined
            ∨ getProp params "relativePath".toList = .null →
          cfg2.relativePath = cfg.relativePath)
      ∧ (getProp params "replacePaths".toList = .null
            ∨ (∃ items props, getProp params "replacePaths".toList = .arr items props)
            ∨ (∃ props, getProp params "replacePaths".toList = .obj props) →
          cfg2.replacePaths = getProp params "replacePaths".toList)
      ∧ (getProp params "replacePaths".toList ≠ .null
            → (∀ items props, getProp params "replacePaths".toList ≠ .arr items props)
            → (∀ props, getProp params "replacePaths".toList ≠ .obj props) →
          cfg2.replacePaths = cfg.replacePaths) := by
  refine ⟨_, twigifyTransform_eligible cfg params file exts hext hyes, rfl, ?_, ?_, ?_, ?_, ?_, ?_⟩
  · intro h1 h2
    show (if (getProp params "minify".toList).neUndefined = true then
      getProp params "minify".toList else cfg.minify) = getProp params "minify".toList
    generalize getProp params "minify".toList = pm at h1 h2 ⊢
    cases pm <;> simp_all [JSVal.neUndefined]
  · intro h1
    show (if (getProp params "minify".toList).neUndefined = true then
      getProp params "minify".toList else cfg.minify) = cfg.minify
    generalize getProp params "minify".toList = pm at h1 ⊢
    rcases h1 with h | h <;> simp [h, JSVal.neUndefined]
  · intro h1 h2
    show (if (getProp params "relativePath".toList).neUndefined = true then
      (getProp params "relativePath".toList).truthy else cfg.relativePath)
        = (getProp params "relativePath".toList).truthy
    generalize getProp params "relativePath".toList = pr at h1 h2 ⊢
    cases pr <;> simp_all [JSVal.neUndefined]
  · intro h1
    show (if (getProp params "relativePath".toList).neUndefined = true then
      (getProp params "relativePath".toList).truthy else cfg.relativePath) = cfg.relativePath
    generalize getProp params "relativePath".toList = pr at h1 ⊢
    rcases h1 with h | h <;> simp [h, JSVal.neUndefined]
  · intro h1
    show (if (getProp params "replacePaths".toList).typeof = "object".toList then
      getProp params "replacePaths".toList else cfg.replacePaths)
        = getProp params "replacePaths".toList
    generalize getProp params "replacePaths".toList = pp at h1 ⊢
    rcases h1 with h | ⟨i, p, h⟩ | ⟨p, h⟩ <;> simp [h, JSVal.typeof]
  · intro h1 h2 h3
    show (if (getProp params "replacePaths".toList).typeof = "object".toList then
      getProp params "replacePaths".toList else cfg.replacePaths) = cfg.replacePaths
    generalize getProp params "replacePaths".toList = pp at h1 h2 h3 ⊢
    cases pp <;> simp_all [JSVal.typeof]

/-- C1. For every path `p` and extension list `E`, `hasTwigifiableExtension(p, getExtensions(E))`
is true exactly when the lower-cased extension of `p` is one of the lower-cased entries of `E`;
so a path whose extension differs from that of `p` only in letter case, and a list whose
entries differ from those of `E` only in letter case, give the same result. -/
theorem hasTwigifiableExtension_getExtensions (env : Env) (cfg : Config) (p : Str)
    (E : List Str) (props : List (Str × JSVal)) :
    Except.map (hasTwigifiableExtension env p)
        (getExtensions env cfg (.arr (E.map JSVal.str) props))
        = .ok (decide (env.toLowerCase (extname p) ∈ E.map env.toLowerCase))
      ∧ ∀ (q : Str) (F : List Str),
          env.toLowerCase (extname q) = env.toLowerCase (extname p) →
          F.map env.toLowerCase = E.map env.toLowerCase →
          Except.map (hasTwigifiableExtension env q)
              (getExtensions env cfg (.arr (F.map JSVal.str) props))
            = Except.map (hasTwigifiableExtension env p)
                (getExtensions env cfg (.arr (E.map JSVal.str) props)) := by
  refine ⟨?_, ?_⟩
  · rw [getExtensions_arr]
    simp only [Except.map, hasTwigifiableExtension_eq]
  · intro q F hq hF
    rw [getExtensions_arr, getExtensions_arr, hF]
    simp only [Except.map, hasTwigifiableExtension_eq, hq]

/-- Witness for C1: `a/B.TwIg` is eligible under `['.TWIG']`, as `a/b.twig` is under
`['.twig']`. -/
theorem hasTwigifiableExtension_getExtensions_witness :
    Except.map (hasTwigifiableExtension sampleEnv "a/B.TwIg".toList)
        (getExtensions sampleEnv config (.arr ([".TWIG".toList].map JSVal.str) []))
      = .ok true :=
  ((hasTwigifiableExtension_getExtensions sampleEnv config "a/b.twig".toList [".twig".toList]
      []).2 "a/B.TwIg".toList [".TWIG".toList] (by decide) (by decide)).trans
    ((hasTwigifiableExtension_getExtensions sampleEnv config "a/b.twig".toList
      [".twig".toList] []).1.trans rfl)

/-- C2. `getExtensions` returns, for an array of strings, that array with every entry
lower-cased (same length, same order, whatever properties the array carries); for a plain
object whose `extensions` property is an array of strings, that array with every entry
lower-cased; and for `undefined`, while `config.extensions` has its initial value, the list
`['.twig', '.html']`. -/
theorem getExtensions_spec (env : Env) (cfg : Config) (E : List Str)
    (props more : List (Str × JSVal)) :
    getExtensions env cfg (.arr (E.map JSVal.str) props) = .ok (E.map env.toLowerCase)
      ∧ (E.map env.toLowerCase).length = E.length
      ∧ (lookupProp "extensions".toList props = some (.arr (E.map JSVal.str) more) →
          getExtensions env cfg (.obj props) = .ok (E.map env.toLowerCase))
      ∧ (cfg.extensions = config.extensions →
          getExtensions env cfg .undefined = .ok [".twig".toList, ".html".toList]) := by
  refine ⟨getExtensions_arr cfg E props, List.length_map _ _, ?_, ?_⟩
  · intro h
    simp only [getExtensions, JSVal.truthy, JSVal.isArray, getProp, h, Option.getD_some,
      lowerAll_strs, ↓reduceIte, Bool.false_eq_true]
  · intro h
    have h1 : env.toLowerCase ".twig".toList = ".twig".toList :=
      env.toLowerCase_ascii _ (by decide)
    have h2 : env.toLowerCase ".html".toList = ".html".toList :=
      env.toLowerCase_ascii _ (by decide)
    simp only [getExtensions, JSVal.truthy, h]
    show lowerAll env [.str ".twig".toList, .str ".html".toList] = _
    simp only [lowerAll, h1, h2]

/-- Witness for C2: the object `{ extensions: ['.TWIG', '.Htm'] }` gives `['.twig', '.htm']`,
and `undefined` gives the default list. -/
theorem getExtensions_spec_witness :
    getExtensions sampleEnv config (.obj [("extensions".toList,
        .arr ([".TWIG".toList, ".Htm".toList].map JSVal.str) [])])
        = .ok [".twig".toList, ".htm".toList]
      ∧ getExtensions sampleEnv config .undefined = .ok [".twig".toList, ".html".toList] :=
  ⟨(getExtensions_spec sampleEnv config [".TWIG".toList, ".Htm".toList]
      [("extensions".toList, .arr ([".TWIG".toList, ".Htm".toList].map JSVal.str) [])] []).2.2.1
      rfl,
   (getExtensions_spec sampleEnv config [] [] []).2.2.2 rfl⟩

/-- C3 (amended). With `relativePath` false and a `replacePaths` object none of whose keys is an
array index: when `k` is the first key in declaration order that occurs in the path, the value
`v` mapped to `k` contains no `$`, and `rest` is what follows the first occurrence of `k` in the
path, a successful `compile` writes the identifier `v ++ rest` into the fragment. -/
theorem compile_replacePaths (env : Env) (cfg : Config) (tpl a k rest v : Str)
    (pre post : List (Str × JSVal)) (calls : List Call) (template : JSVal)
    (hrel : cfg.relativePath = false)
    (hrp : cfg.replacePaths = .obj (pre ++ (k, .str v) :: post))
    (hidx : ∀ kv ∈ pre ++ (k, .str v) :: post, arrayIndex kv.1 = none)
    (hpre : ∀ kv ∈ pre, ¬ kv.1 <:+: a ++ k ++ rest)
    (hfirst : ∀ b c, a ++ k ++ rest = b ++ k ++ c → a.length ≤ b.length)
    (hv : '$' ∉ v)
    (htok : tokenize env cfg (a ++ k ++ rest) tpl = (calls, .ok template)) :
    compile env cfg (a ++ k ++ rest) tpl = (calls, .ok ("Twig.twig(\x7b id: \"".toList
      ++ (v ++ rest) ++ "\", data:".toList ++ env.stringify template
      ++ ", precompiled: true, allowInlineIncludes: true \x7d)".toList)) := by
  rw [compile_of_tokenize env cfg _ tpl calls template hrel htok, hrp]
  have hkeys : forInKeys (.obj (pre ++ (k, .str v) :: post))
      = pre.map Prod.fst ++ k :: post.map Prod.fst := by
    simp only [forInKeys, ownKeys_of_no_index _ hidx, List.map_append, List.map_cons]
  have hne : ∀ kv ∈ pre, kv.1 ≠ k := by
    intro kv hkv hEq
    apply hpre kv hkv
    rw [hEq]
    exact ⟨a, rest, rfl⟩
  have hget : getProp (.obj (pre ++ (k, .str v) :: post)) k = .str v := by
    simp only [getProp, lookupProp_first k (.str v) pre post hne, Option.getD_some]
  have hpre2 : ∀ j ∈ pre.map Prod.fst, ¬ j <:+: a ++ k ++ rest := by
    intro j hj
    obtain ⟨kv, hkv, rfl⟩ := List.mem_map.1 hj
    exact hpre kv hkv
  rw [hkeys, replacePathsLoop_first _ a k rest hfirst _ _ hpre2, hget]
  simp only [JSVal.truthy, ↓reduceIte, JSVal.toStr, getSubstitution_of_no_dollar _ _ _ v hv]

/-- Witness for C3: the mapping `{"/app": "@app", "/ap": "@X"}` and the path `/app/foo.twig`
give the identifier `@app/foo.twig`. -/
theorem compile_replacePaths_witness :
    compile sampleEnv
      { config with minify := .bool false,
                    replacePaths := .obj [("/app".toList, .str "@app".toList),
                                          ("/ap".toList, .str "@X".toList)] }
      "/app/foo.twig".toList "hello".toList
    = ([Call.twig "/app/foo.twig".toList "hello".toList],
       .ok ("Twig.twig(\x7b id: \"".toList ++ ("@app".toList ++ "/foo.twig".toList)
          ++ "\", data:".toList ++ sampleEnv.stringify (.arr [.str "hello".toList] [])
          ++ ", precompiled: true, allowInlineIncludes: true \x7d)".toList)) :=
  compile_replacePaths sampleEnv
    { config with minify := .bool false,
                  replacePaths := .obj [("/app".toList, .str "@app".toList),
                                        ("/ap".toList, .str "@X".toList)] }
    "hello".toList [] "/app".toList "/foo.twig".toList "@app".toList
    [] [("/ap".toList, .str "@X".toList)] [Call.twig "/app/foo.twig".toList "hello".toList]
    (.arr [.str "hello".toList] [])
    rfl rfl (by decide) (by decide) (fun _ _ _ => Nat.zero_le _) (by decide) rfl

/-- Counterexample to C3 as stated. With the mapping `{"/app": "$$app"}` the path
`/app/foo.twig` gets the identifier `$app/foo.twig`, not `$$app/foo.twig`; and with the mapping
`{"/app": "@app", "2": "@X"}` the path `/app/v2/foo.twig` gets `@X/foo.twig`, from the key
declared second, not `@app/v2/foo.twig`. -/
theorem compile_replacePaths_counterexample :
    ((compile sampleEnv
        { config with minify := .bool false,
                      replacePaths := .obj [("/app".toList, .str "$$app".toList)] }
        "/app/foo.twig".toList "hello".toList).2.toOption
      = some ("Twig.twig(\x7b id: \"$app/foo.twig\", data:[hello], precompiled: true, allowInlineIncludes: true \x7d)".toList)
      ∧ (compile sampleEnv
        { config with minify := .bool false,
                      replacePaths := .obj [("/app".toList, .str "$$app".toList)] }
        "/app/foo.twig".toList "hello".toList).2.toOption
      ≠ some ("Twig.twig(\x7b id: \"".toList ++ ("$$app".toList ++ "/foo.twig".toList)
          ++ "\", data:[hello], precompiled: true, allowInlineIncludes: true \x7d)".toList))
    ∧ ((compile sampleEnv
        { config with minify := .bool false,
                      replacePaths := .obj [("/app".toList, .str "@app".toList),
                                            ("2".toList, .str "@X".toList)] }
        "/app/v2/foo.twig".toList "hello".toList).2.toOption
      = some ("Twig.twig(\x7b id: \"@X/foo.twig\", data:[hello], precompiled: true, allowInlineIncludes: true \x7d)".toList)
      ∧ (compile sampleEnv
        { config with minify := .bool false,
                      replacePaths := .obj [("/app".toList, .str "@app".toList),
                                            ("2".toList, .str "@X".toList)] }
        "/app/v2/foo.twig".toList "hello".toList).2.toOption
      ≠ some ("Twig.twig(\x7b id: \"".toList ++ ("@app".toList ++ "/v2/foo.twig".toList)
          ++ "\", data:[hello], precompiled: true, allowInlineIncludes: true \x7d)".toList)) := by
  refine ⟨⟨?_, ?_⟩, ⟨?_, ?_⟩⟩ <;> decide

/-- C4. With minification disabled, `relativePath` false and `replacePaths` unset or an object
none of whose keys occurs in `id`: when the tokenizer succeeds on `(id, T)`, `compile(id, T)`
returns a fragment in which the `id:` field is `id` between double quotes, unchanged. -/
theorem compile_id_verbatim (env : Env) (cfg : Config) (id T : Str) (template : JSVal)
    (hmin : cfg.minify.typeof ≠ "object".toList)
    (hrel : cfg.relativePath = false)
    (hrp : cfg.replacePaths.truthy = false
      ∨ ∃ props, cfg.replacePaths = .obj props ∧ ∀ kv ∈ props, ¬ kv.1 <:+: id)
    (htw : env.twig id T = .ok template) :
    compile env cfg id T = ([Call.twig id T], .ok ("Twig.twig(\x7b id: ".toList
      ++ ("\"".toList ++ id ++ "\"".toList) ++ ", data:".toList ++ env.stringify template
      ++ ", precompiled: true, allowInlineIncludes: true \x7d)".toList)) := by
  have htok : tokenize env cfg id T = ([Call.twig id T], .ok template) := by
    rw [tokenize_of_not_object env cfg id T hmin, htw]
  rw [compile_of_tokenize env cfg id T _ template hrel htok]
  have hid : (if cfg.replacePaths.truthy then
      replacePathsLoop env cfg.replacePaths id (forInKeys cfg.replacePaths) else id) = id := by
    rcases hrp with h | ⟨props, hp, hkeys⟩
    · simp only [h, Bool.false_eq_true, ↓reduceIte]
    · rw [hp]
      simp only [JSVal.truthy, ↓reduceIte, forInKeys]
      apply replacePathsLoop_absent
      intro k hk
      obtain ⟨kv, hkv, rfl⟩ := List.mem_map.1 (mem_ownKeys props k hk)
      exact hkeys kv hkv
  rw [hid]
  simp [List.append_assoc]

/-- Witness for C4: the path `/src/a.twig`, the text `hi`, and the mapping `{"/app": "@app"}`. -/
theorem compile_id_verbatim_witness :
    compile sampleEnv
      { config with minify := .bool false,
                    replacePaths := .obj [("/app".toList, .str "@app".toList)] }
      "/src/a.twig".toList "hi".toList
    = ([Call.twig "/src/a.twig".toList "hi".toList], .ok ("Twig.twig(\x7b id: ".toList
      ++ ("\"".toList ++ "/src/a.twig".toList ++ "\"".toList) ++ ", data:".toList
      ++ sampleEnv.stringify (.arr [.str "hi".toList] [])
      ++ ", precompiled: true, allowInlineIncludes: true \x7d)".toList)) :=
  compile_id_verbatim sampleEnv
    { config with minify := .bool false,
                  replacePaths := .obj [("/app".toList, .str "@app".toList)] }
    "/src/a.twig".toList "hi".toList (.arr [.str "hi".toList] [])
    (by decide) rfl (Or.inr ⟨_, rfl, by decide⟩) rfl

/-- C5. `process(s)` is the text `"\nmodule.exports = "`, then `s`, then `";"`, for every `s`:
a total function of `s` alone, nineteen characters longer than `s`. -/
theorem process_spec (s : Str) :
    process s = ['\n', 'm', 'o', 'd', 'u', 'l', 'e', '.', 'e', 'x', 'p', 'o', 'r', 't', 's',
        ' ', '=', ' '] ++ s ++ [';']
      ∧ (process s).length = s.length + 19 := by
  refine ⟨rfl, ?_⟩
  simp [process]

/-- C6. When the path is not eligible under the extension list resolved from the invocation,
`twigifyTransform` returns the pass-through stream and leaves `config` alone; on every sequence
of chunks that stream emits the same chunks in the same order and then completes, and makes no
call to the minifier or the tokenizer. -/
theorem passThrough_of_ineligible (env : Env) (cfg cfgEnd : Config) (params : JSVal)
    (file : Str) (exts : List Str) (chunks : List Chunk)
    (hext : getExtensions env cfg (getProp params "extensions".toList) = .ok exts)
    (hno : hasTwigifiableExtension env file exts = false) :
    twigifyTransform env cfg params file = .ok (cfg, .passThrough)
      ∧ Stream.run env cfgEnd .passThrough chunks
          = ([], chunks.map (fun c => Event.data (.bytes c)) ++ [Event.finished]) := by
  refine ⟨twigifyTransform_ineligible cfg params file exts hext hno, ?_⟩
  simp [Stream.run, writeAll_passThrough, Stream.finish]

/-- Witness for C6: `styles.css` with the default extensions and two chunks. -/
theorem passThrough_of_ineligible_witness :
    twigifyTransform sampleEnv config .undefined "styles.css".toList = .ok (config, .passThrough)
      ∧ Stream.run sampleEnv config .passThrough [[104, 105], [33]]
          = ([], [[104, 105], [33]].map (fun c => Event.data (.bytes c)) ++ [Event.finished]) :=
  passThrough_of_ineligible sampleEnv config config .undefined "styles.css".toList
    [".twig".toList, ".html".toList] [[104, 105], [33]] rfl (by decide)

/-- C7. For an eligible path `twigifyTransform` returns the buffering stream; that stream emits
nothing while chunks are written, and when `compile` succeeds on the decoded concatenation of
the chunks, the whole run emits exactly one chunk, `process` of the compiled fragment, followed
by normal completion. -/
theorem single_chunk_of_eligible (env : Env) (cfg cfgEnd : Config) (params : JSVal)
    (file : Str) (exts : List Str) (chunks : List Chunk) (calls : List Call) (frag : Str)
    (hext : getExtensions env cfg (getProp params "extensions".toList) = .ok exts)
    (hyes : hasTwigifiableExtension env file exts = true)
    (hcomp : compile env cfgEnd file (env.bufferToString chunks.flatten) = (calls, .ok frag)) :
    Except.map Prod.snd (twigifyTransform env cfg params file) = .ok (.twigify file [])
      ∧ (∀ n, ((Stream.twigify file []).writeAll (chunks.take n)).2 = [])
      ∧ Stream.run env cfgEnd (.twigify file []) chunks
          = (calls, [Event.data (.text (process frag)), Event.finished]) := by
  refine ⟨?_, ?_, ?_⟩
  · rw [twigifyTransform_eligible cfg params file exts hext hyes]; rfl
  · intro n; rw [writeAll_twigify]
  · rw [run_twigify]
    simp only [end_, hcomp]

/-- Witness for C7: `a.twig` with the default options, the text `hi` in two chunks. -/
theorem single_chunk_of_eligible_witness :
    Stream.run sampleEnv config (.twigify "a.twig".toList []) [[104], [105]]
      = ([Call.minify "hi".toList config.minify, Call.twig "a.twig".toList "hi".toList],
         [Event.data (.text (process ("Twig.twig(\x7b id: \"a.twig\", data:[hi], precompiled: true, allowInlineIncludes: true \x7d)".toList))),
          Event.finished]) :=
  (single_chunk_of_eligible sampleEnv config config .undefined "a.twig".toList
    [".twig".toList, ".html".toList] [[104], [105]]
    [Call.minify "hi".toList config.minify, Call.twig "a.twig".toList "hi".toList]
    ("Twig.twig(\x7b id: \"a.twig\", data:[hi], precompiled: true, allowInlineIncludes: true \x7d)".toList)
    rfl (by decide) (by rfl)).2.2

/-- C8. For an eligible path, the run of the stream on any chunks emits the `error` event
carrying `e` exactly when, on the decoded concatenation of the chunks, the minifier (called
when `typeof config.minify` is `'object'`) throws `e`, or the tokenizer throws `e` on the text
handed to it (the minifier's output when it ran, the decoded text otherwise); and then that
event is all the stream emits: no output chunk and no normal completion. -/
theorem error_iff_compile_fails (env : Env) (cfg cfgEnd : Config) (params : JSVal)
    (file : Str) (exts : List Str) (chunks : List Chunk) (e : JSError)
    (hext : getExtensions env cfg (getProp params "extensions".toList) = .ok exts)
    (hyes : hasTwigifiableExtension env file exts = true) :
    Except.map Prod.snd (twigifyTransform env cfg params file) = .ok (.twigify file [])
      ∧ (Event.error e ∈ (Stream.run env cfgEnd (.twigify file []) chunks).2 ↔
          (cfgEnd.minify.typeof = "object".toList
              ∧ env.minify (env.bufferToString chunks.flatten) cfgEnd.minify = .error e)
            ∨ (cfgEnd.minify.typeof = "object".toList
              ∧ ∃ m, env.minify (env.bufferToString chunks.flatten) cfgEnd.minify = .ok m
                  ∧ env.twig file m = .error e)
            ∨ (cfgEnd.minify.typeof ≠ "object".toList
              ∧ env.twig file (env.bufferToString chunks.flatten) = .error e))
      ∧ (Event.error e ∈ (Stream.run env cfgEnd (.twigify file []) chunks).2 →
          (Stream.run env cfgEnd (.twigify file []) chunks).2 = [Event.error e]) := by
  refine ⟨?_, ?_⟩
  · rw [twigifyTransform_eligible cfg params file exts hext hyes]; rfl
  rw [run_twigify]
  by_cases hobj : cfgEnd.minify.typeof = "object".toList
  · cases hm : env.minify (env.bufferToString chunks.flatten) cfgEnd.minify with
    | error e1 =>
      rw [end_of_tokenize_error env cfgEnd file chunks _ e1
        (tokenize_minify_error env cfgEnd file _ e1 hobj hm)]
      simp [hobj]
      exact ⟨eq_comm, Eq.symm⟩
    | ok m =>
      have ht := tokenize_of_object env cfgEnd file _ m hobj hm
      cases htw : env.twig file m with
      | error e1 =>
        rw [htw] at ht
        rw [end_of_tokenize_error env cfgEnd file chunks _ e1 ht]
        simp [hobj, htw]
        exact ⟨eq_comm, Eq.symm⟩
      | ok template =>
        rw [htw] at ht
        obtain ⟨frag, hf⟩ := end_of_tokenize_ok env cfgEnd file chunks _ template ht
        rw [hf]
        simp [hobj, htw]
  · have ht := tokenize_of_not_object env cfgEnd file (env.bufferToString chunks.flatten) hobj
    have hobj2 : ¬ cfgEnd.minify.typeof = ['o', 'b', 'j', 'e', 'c', 't'] := hobj
    cases htw : env.twig file (env.bufferToString chunks.flatten) with
    | error e1 =>
      rw [htw] at ht
      rw [end_of_tokenize_error env cfgEnd file chunks _ e1 ht]
      simp [hobj2]
      exact ⟨eq_comm, Eq.symm⟩
    | ok template =>
      rw [htw] at ht
      obtain ⟨frag, hf⟩ := end_of_tokenize_ok env cfgEnd file chunks _ template ht
      rw [hf]
      simp [hobj2]

/-- Witness for C8: `a.twig` with the initial `config` and the unterminated text `{{ x`. -/
theorem error_iff_compile_fails_witness :
    (Stream.run sampleEnv config (.twigify "a.twig".toList []) [[123, 123], [32, 120]]).2
      = [Event.error (.thrown (.str "Unable to find closing bracket".toList))] :=
  (error_iff_compile_fails sampleEnv config config .undefined "a.twig".toList
      [".twig".toList, ".html".toList] [[123, 123], [32, 120]]
      (.thrown (.str "Unable to find closing bracket".toList)) rfl (by decide)).2.2
    ((error_iff_compile_fails sampleEnv config config .undefined "a.twig".toList
      [".twig".toList, ".html".toList] [[123, 123], [32, 120]]
      (.thrown (.str "Unable to find closing bracket".toList)) rfl (by decide)).2.1.2
      (Or.inr (Or.inl ⟨rfl, [Char.ofNat 123, Char.ofNat 123, 'x'], rfl, rfl⟩)))

/-- C9. When `config.minify` is an options record and the minifier returns `m` for the text and
that record, `compile` calls the minifier with the text and the record and then the tokenizer
with `m`, and its result is the result of compiling `m` with minification off; when
`config.minify` is `false`, the only call is the tokenizer's, with the text itself. -/
theorem tokenizer_gets_minified (env : Env) (cfg : Config) (id text : Str) :
    (∀ (opts : List (Str × JSVal)) (m : Str), cfg.minify = .obj opts →
        env.minify text (.obj opts) = .ok m →
        (compile env cfg id text).1 = [Call.minify text (.obj opts), Call.twig id m]
          ∧ (compile env cfg id text).2
              = (compile env { cfg with minify := .bool false } id m).2)
      ∧ (cfg.minify = .bool false → (compile env cfg id text).1 = [Call.twig id text]) := by
  refine ⟨?_, ?_⟩
  · intro opts m hopts hm
    have hobj : cfg.minify.typeof = "object".toList := by rw [hopts]; rfl
    have ht := tokenize_of_object env cfg id text m hobj (by rw [hopts]; exact hm)
    have ht2 := tokenize_of_not_object env { cfg with minify := .bool false } id m
      (by show (JSVal.bool false).typeof ≠ "object".toList; decide)
    rw [hopts] at ht
    unfold compile
    rw [ht, ht2]
    cases env.twig id m with
    | error e => exact ⟨rfl, rfl⟩
    | ok template =>
      dsimp only
      split <;> exact ⟨rfl, rfl⟩
  · intro hfalse
    have ht := tokenize_of_not_object env cfg id text (by rw [hfalse]; decide)
    unfold compile
    rw [ht]
    cases env.twig id text with
    | error e => rfl
    | ok template =>
      dsimp only
      split <;> rfl

/-- Witness for C9: with the initial `config` the text `a b` reaches the toy tokenizer as `ab`. -/
theorem tokenizer_gets_minified_witness :
    (compile sampleEnv config "a.twig".toList "a b".toList).1
        = [Call.minify "a b".toList config.minify, Call.twig "a.twig".toList "ab".toList]
      ∧ (compile sampleEnv config "a.twig".toList "a b".toList).2
        = (compile sampleEnv { config with minify := .bool false } "a.twig".toList
            "ab".toList).2 :=
  (tokenizer_gets_minified sampleEnv config "a.twig".toList "a b".toList).1 _ "ab".toList
    rfl rfl

/-- C10. With options typed as the configuration record types them (`minify` a boolean or an
options record, `relativePath` a boolean, `replacePaths` a mapping or `null`, each possibly
absent), an eligible invocation overwrites each of the three fields by the option when the
option is supplied and keeps its prior value when it is not, each field on its own;
`relativePath` is stored as a boolean and `extensions` is left alone. -/
theorem twigifyTransform_merge (env : Env) (cfg : Config) (params : JSVal) (file : Str)
    (exts : List Str)
    (hext : getExtensions env cfg (getProp params "extensions".toList) = .ok exts)
    (hyes : hasTwigifiableExtension env file exts = true)
    (hm : getProp params "minify".toList = .undefined
      ∨ (∃ b, getProp params "minify".toList = .bool b)
      ∨ ∃ o, getProp params "minify".toList = .obj o)
    (hp : getProp params "replacePaths".toList = .undefined
      ∨ getProp params "replacePaths".toList = .null
      ∨ ∃ o, getProp params "replacePaths".toList = .obj o) :
    ∃ cfg2, twigifyTransform env cfg params file = .ok (cfg2, .twigify file [])
      ∧ cfg2.extensions = cfg.extensions
      ∧ (getProp params "minify".toList ≠ .undefined →
          cfg2.minify = getProp params "minify".toList)
      ∧ (getProp params "minify".toList = .undefined → cfg2.minify = cfg.minify)
      ∧ (∀ b, getProp params "relativePath".toList = .bool b → cfg2.relativePath = b)
      ∧ (getProp params "relativePath".toList = .undefined →
          cfg2.relativePath = cfg.relativePath)
      ∧ (getProp params "replacePaths".toList ≠ .undefined →
          cfg2.replacePaths = getProp params "replacePaths".toList)
      ∧ (getProp params "replacePaths".toList = .undefined →
          cfg2.replacePaths = cfg.replacePaths) := by
  obtain ⟨cfg2, h0, hx, m1, m2, r1, r2, p1, p2⟩ :=
    twigifyTransform_guards env cfg params file exts hext hyes
  refine ⟨cfg2, h0, hx, ?_, ?_, ?_, ?_, ?_, ?_⟩
  · intro hne
    rcases hm with h | ⟨b, h⟩ | ⟨o, h⟩
    · exact absurd h hne
    · exact m1 hne (by rw [h]; intro hc; cases hc)
    · exact m1 hne (by rw [h]; intro hc; cases hc)
  · intro h
    exact m2 (Or.inl h)
  · intro b h
    have := r1 (by rw [h]; intro hc; cases hc) (by rw [h]; intro hc; cases hc)
    rw [this, h]
    rfl
  · intro h
    exact r2 (Or.inl h)
  · intro hne
    rcases hp with h | h | ⟨o, h⟩
    · exact absurd h hne
    · exact p1 (Or.inl h)
    · exact p1 (Or.inr (Or.inr ⟨o, h⟩))
  · intro h
    exact p2 (by rw [h]; intro hc; cases hc) (fun _ _ => by rw [h]; intro hc; cases hc)
      (fun _ => by rw [h]; intro hc; cases hc)

/-- Witness for C10: after the options `{ minify: false, replacePaths: {"/app": "@app"} }` on
`a.twig`, `minify` is `false`, `replacePaths` is the mapping, `relativePath` is as before. -/
theorem twigifyTransform_merge_witness :
    ∃ cfg2, twigifyTransform sampleEnv config
        (.obj [("minify".toList, .bool false),
               ("replacePaths".toList, .obj [("/app".toList, .str "@app".toList)])])
        "a.twig".toList = .ok (cfg2, .twigify "a.twig".toList [])
      ∧ cfg2.minify = .bool false
      ∧ cfg2.relativePath = false
      ∧ cfg2.replacePaths = .obj [("/app".toList, .str "@app".toList)] := by
  obtain ⟨cfg2, h0, _, h1, _, _, h2, h3, _⟩ := twigifyTransform_merge sampleEnv config
    (.obj [("minify".toList, .bool false),
           ("replacePaths".toList, .obj [("/app".toList, .str "@app".toList)])])
    "a.twig".toList [".twig".toList, ".html".toList] rfl (by decide)
    (Or.inr (Or.inl ⟨false, rfl⟩)) (Or.inr (Or.inr ⟨_, rfl⟩))
  exact ⟨cfg2, h0, h1 (by intro hc; cases hc), h2 rfl, h3 (by intro hc; cases hc)⟩

/-- C11. With `relativePath` true, a successful `compile` returns exactly
`Twig.twig({ id: __filename, path: __dirname, data:` + tokens +
`, precompiled: true, allowInlineIncludes: true })`, and `compile` gives the same result
whatever `replacePaths` holds. -/
theorem compile_relativePath (env : Env) (cfg : Config) (id tpl : Str) (calls : List Call)
    (template rp : JSVal)
    (hrel : cfg.relativePath = true)
    (htok : tokenize env cfg id tpl = (calls, .ok template)) :
    compile env cfg id tpl
        = (calls, .ok ("Twig.twig(\x7b id: __filename, path: __dirname, data:".toList
            ++ env.stringify template
            ++ ", precompiled: true, allowInlineIncludes: true \x7d)".toList))
      ∧ compile env { cfg with replacePaths := rp } id tpl = compile env cfg id tpl := by
  have htok2 : tokenize env { cfg with replacePaths := rp } id tpl = (calls, .ok template) :=
    htok
  refine ⟨?_, ?_⟩
  · unfold compile
    rw [htok]
    simp only [hrel, ↓reduceIte]
  · unfold compile
    rw [htok, htok2]
    simp only [hrel, ↓reduceIte]

/-- Witness for C11: `relativePath` true with a mapping that would match the path. -/
theorem compile_relativePath_witness :
    compile sampleEnv
        { config with relativePath := true, minify := .bool false,
                      replacePaths := .obj [("/app".toList, .str "@app".toList)] }
        "/app/foo.twig".toList "hello".toList
      = ([Call.twig "/app/foo.twig".toList "hello".toList],
          .ok ("Twig.twig(\x7b id: __filename, path: __dirname, data:".toList
            ++ sampleEnv.stringify (.arr [.str "hello".toList] [])
            ++ ", precompiled: true, allowInlineIncludes: true \x7d)".toList)) :=
  (compile_relativePath sampleEnv
    { config with relativePath := true, minify := .bool false,
                  replacePaths := .obj [("/app".toList, .str "@app".toList)] }
    "/app/foo.twig".toList "hello".toList [Call.twig "/app/foo.twig".toList "hello".toList]
    (.arr [.str "hello".toList] []) .null rfl rfl).1

/-- C12. For a file `f` and options `o` that are not a string, calling the function that
`module.exports(o)` returns on `f` gives what `module.exports(f, o)` gives: the same `config`
and the same stream, or the same exception; and `module.exports()` followed by `(f)` gives
what `module.exports(f, {})` gives. -/
theorem moduleExports_conventions (env : Env) (cfg : Config) (o : JSVal) (f : Str)
    (ho : o.typeof ≠ "string".toList) :
    Exported.stream ((moduleExports env cfg o .undefined).call env cfg f)
        = moduleExports env cfg (.str f) o
      ∧ Exported.stream ((moduleExports env cfg .undefined .undefined).call env cfg f)
          = moduleExports env cfg (.str f) (.obj []) := by
  refine ⟨?_, rfl⟩
  cases o with
  | str s => exact absurd rfl ho
  | undefined => rfl
  | null => rfl
  | bool b => rfl
  | num n => rfl
  | arr items props => rfl
  | obj props => rfl

/-- Witness for C12: the options `{ minify: false }` and the file `a.twig`. -/
theorem moduleExports_conventions_witness :
    Exported.stream ((moduleExports sampleEnv config (.obj [("minify".toList, .bool false)])
        .undefined).call sampleEnv config "a.twig".toList)
      = moduleExports sampleEnv config (.str "a.twig".toList)
          (.obj [("minify".toList, .bool false)]) :=
  (moduleExports_conventions sampleEnv config (.obj [("minify".toList, .bool false)])
    "a.twig".toList (by decide)).1

/-- C13. The buffering stream keeps every chunk, in arrival order, and its run depends on the
chunks only through their concatenation: two chunk sequences with the same concatenation give
the same external calls and the same events. -/
theorem run_of_same_concatenation (env : Env) (cfg : Config) (file : Str)
    (chunks1 chunks2 : List Chunk) (h : chunks1.flatten = chunks2.flatten) :
    ((Stream.twigify file []).writeAll chunks1).1 = .twigify file chunks1
      ∧ Stream.run env cfg (.twigify file []) chunks1
          = Stream.run env cfg (.twigify file []) chunks2 := by
  refine ⟨?_, ?_⟩
  · rw [writeAll_twigify]; rfl
  · rw [run_twigify, run_twigify]
    unfold end_
    rw [h]

/-- Witness for C13: the bytes of `hi!` as `hi` + `!` and as `h` + `i!`. -/
theorem run_of_same_concatenation_witness :
    Stream.run sampleEnv config (.twigify "a.twig".toList []) [[104, 105], [33]]
      = Stream.run sampleEnv config (.twigify "a.twig".toList []) [[104], [105, 33]] :=
  (run_of_same_concatenation sampleEnv config "a.twig".toList [[104, 105], [33]]
    [[104], [105, 33]] (by decide)).2

/-- C14 (amended). Every call of the tokenizer made by the run of the stream of a file carries
the unmodified file path as `id`, whatever `replacePaths` holds, and a run that tokenizes
successfully makes such a call. With `relativePath` false that path is also the identifier
written into the fragment when `replacePaths` is unset or is an object none of whose keys
occurs in the path. -/
theorem tokenizer_gets_file_path (env : Env) (cfg : Config) (file : Str)
    (chunks : List Chunk) :
    (∀ i d, Call.twig i d ∈ (Stream.run env cfg (.twigify file []) chunks).1 → i = file)
      ∧ (∀ calls template,
          tokenize env cfg file (env.bufferToString chunks.flatten) = (calls, .ok template) →
          (∃ d, Call.twig file d ∈ (Stream.run env cfg (.twigify file []) chunks).1)
            ∧ (cfg.relativePath = false →
                (cfg.replacePaths.truthy = false
                  ∨ ∃ props, cfg.replacePaths = .obj props ∧ ∀ kv ∈ props, ¬ kv.1 <:+: file) →
                compile env cfg file (env.bufferToString chunks.flatten)
                  = (calls, .ok ("Twig.twig(\x7b id: \"".toList ++ file
                      ++ "\", data:".toList ++ env.stringify template
                      ++ ", precompiled: true, allowInlineIncludes: true \x7d)".toList)))) := by
  refine ⟨?_, ?_⟩
  · intro i d h
    rw [run_twigify, end_calls] at h
    exact mem_tokenize_calls_twig env cfg file _ i d h
  · intro calls template htok
    refine ⟨?_, fun hrel hrp => compile_id_unchanged env cfg file _ calls template hrel hrp htok⟩
    rw [run_twigify, end_calls, htok]
    exact tokenize_ok_calls_twig env cfg file _ calls template htok

/-- Witness for C14: `/src/a.twig` with the mapping `{"/app": "@app"}`, which does not occur. -/
theorem tokenizer_gets_file_path_witness :
    compile sampleEnv
        { config with minify := .bool false,
                      replacePaths := .obj [("/app".toList, .str "@app".toList)] }
        "/src/a.twig".toList (sampleEnv.bufferToString [[104], [105]].flatten)
      = ([Call.twig "/src/a.twig".toList "hi".toList],
          .ok ("Twig.twig(\x7b id: \"".toList ++ "/src/a.twig".toList
            ++ "\", data:".toList ++ sampleEnv.stringify (.arr [.str "hi".toList] [])
            ++ ", precompiled: true, allowInlineIncludes: true \x7d)".toList)) :=
  ((tokenizer_gets_file_path sampleEnv
      { config with minify := .bool false,
                    replacePaths := .obj [("/app".toList, .str "@app".toList)] }
      "/src/a.twig".toList [[104], [105]]).2
    [Call.twig "/src/a.twig".toList "hi".toList] (.arr [.str "hi".toList] []) rfl).2
    rfl (Or.inr ⟨_, rfl, by decide⟩)

/-- Counterexample to C14 as stated. With the mapping `{"/app": "@app"}` and the file
`/app/foo.twig` the tokenizer is called with the id `/app/foo.twig`, while the fragment carries
the id `@app/foo.twig`. -/
theorem tokenizer_gets_file_path_counterexample :
    Stream.run sampleEnv
        { config with minify := .bool false,
                      replacePaths := .obj [("/app".toList, .str "@app".toList)] }
        (.twigify "/app/foo.twig".toList []) [[104], [105]]
      = ([Call.twig "/app/foo.twig".toList "hi".toList],
         [Event.data (.text (process ("Twig.twig(\x7b id: \"@app/foo.twig\", data:[hi], precompiled: true, allowInlineIncludes: true \x7d)".toList))),
          Event.finished])
      ∧ "/app/foo.twig".toList ≠ "@app/foo.twig".toList := by
  refine ⟨by rfl, by decide⟩

/-- C15 (amended). For a path that does not end in `/`, the extension used to decide
eligibility is `path.extname` lower-cased. When the final path segment is `stem ++ "." ++ ext`
with no `.` in `ext`, it is everything from that last `.`, lower-cased, which is the extension
in the words of the specification, except that it is empty when the `.` is the first character
of the segment (a dotfile such as `.twig`) and when the segment is `..`. When the final segment
has no `.`, it is empty. -/
theorem extension_used (env : Env) (pre stem ext base : Str) (exts : List Str)
    (hpre : pre = [] ∨ ∃ p, pre = p ++ ['/']) :
    ('/' ∉ stem → '/' ∉ ext → '.' ∉ ext →
        statedExtension env (pre ++ stem ++ '.' :: ext) = env.toLowerCase ('.' :: ext)
          ∧ env.toLowerCase (extname (pre ++ stem ++ '.' :: ext))
              = (if stem = [] ∨ (stem = ['.'] ∧ ext = []) then []
                 else statedExtension env (pre ++ stem ++ '.' :: ext))
          ∧ hasTwigifiableExtension env (pre ++ stem ++ '.' :: ext) exts
              = decide ((if stem = [] ∨ (stem = ['.'] ∧ ext = []) then []
                 else env.toLowerCase ('.' :: ext)) ∈ exts))
      ∧ ('/' ∉ base → '.' ∉ base → (base = [] → pre = []) →
          statedExtension env (pre ++ base) = []
            ∧ env.toLowerCase (extname (pre ++ base)) = []
            ∧ hasTwigifiableExtension env (pre ++ base) exts = decide ([] ∈ exts)) := by
  refine ⟨?_, ?_⟩
  · intro hs he1 he2
    have hx := extname_of_dot pre stem ext 0 hpre hs he1 he2
    simp only [List.replicate_zero, List.append_nil] at hx
    have hst : statedExtension env (pre ++ stem ++ '.' :: ext) = env.toLowerCase ('.' :: ext) :=
      statedExtension_of_dot pre stem ext hpre hs he1 he2
    have hlow : env.toLowerCase (extname (pre ++ stem ++ '.' :: ext))
        = if stem = [] ∨ (stem = ['.'] ∧ ext = []) then []
          else env.toLowerCase ('.' :: ext) := by
      rw [hx]
      split
      · exact toLowerCase_nil env
      · rfl
    refine ⟨hst, ?_, ?_⟩
    · rw [hlow, hst]
    · rw [hasTwigifiableExtension_eq, hlow]
  · intro hb1 hb2 hne
    have hx := extname_of_no_dot pre base 0 hpre hb1 hb2 hne
    simp only [List.replicate_zero, List.append_nil] at hx
    refine ⟨statedExtension_of_no_dot pre base hpre hb1 hb2, ?_, ?_⟩
    · rw [hx]; exact toLowerCase_nil env
    · rw [hasTwigifiableExtension_eq, hx, toLowerCase_nil]

/-- Witness for C15: `views/Page.TWIG` has the extension `.twig`, `views/README` has none. -/
theorem extension_used_witness :
    (sampleEnv.toLowerCase (extname ("views/".toList ++ "Page".toList ++ '.' :: "TWIG".toList))
        = (if "Page".toList = [] ∨ ("Page".toList = ['.'] ∧ "TWIG".toList = []) then []
           else statedExtension sampleEnv ("views/".toList ++ "Page".toList ++ '.' :: "TWIG".toList)))
      ∧ sampleEnv.toLowerCase (extname ("views/".toList ++ "README".toList)) = [] :=
  ⟨((extension_used sampleEnv "views/".toList "Page".toList "TWIG".toList "README".toList []
      (Or.inr ⟨"views".toList, rfl⟩)).1 (by decide) (by decide) (by decide)).2.1,
   ((extension_used sampleEnv "views/".toList "Page".toList "TWIG".toList "README".toList []
      (Or.inr ⟨"views".toList, rfl⟩)).2 (by decide) (by decide) (by decide)).2.1⟩

/-- Counterexample to C15 as stated. For `views/.twig` everything from the last `.` of the
final segment is `.twig`, but the extension used is the empty string, and the file is not
eligible under the default extensions. -/
theorem extension_used_counterexample :
    statedExtension sampleEnv "views/.twig".toList = ".twig".toList
      ∧ sampleEnv.toLowerCase (extname "views/.twig".toList) = []
      ∧ hasTwigifiableExtension sampleEnv "views/.twig".toList [".twig".toList, ".html".toList]
          = false := by
  refine ⟨?_, ?_, ?_⟩ <;> decide

/-- C16 (amended). A path with no extension is not eligible under any extension list that does
not contain the empty string; in particular a path whose final segment has no `.` is not. -/
theorem not_eligible_without_extension (env : Env) (cfg : Config) (p pre base : Str)
    (E : List Str)
    (props : List (Str × JSVal)) (hE : [] ∉ E) :
    (extname p = [] →
        Except.map (hasTwigifiableExtension env p)
            (getExtensions env cfg (.arr (E.map JSVal.str) props))
          = .ok false)
      ∧ ((pre = [] ∨ ∃ q, pre = q ++ ['/']) → '/' ∉ base → '.' ∉ base → (base = [] → pre = []) →
          Except.map (hasTwigifiableExtension env (pre ++ base))
              (getExtensions env cfg (.arr (E.map JSVal.str) props))
            = .ok false) := by
  have hlow : [] ∉ E.map env.toLowerCase := by
    intro h
    obtain ⟨e, he, hnil⟩ := List.mem_map.1 h
    have : e = [] := env.eq_nil_of_toLowerCase e hnil
    exact hE (this ▸ he)
  have key : ∀ q : Str, extname q = [] →
      Except.map (hasTwigifiableExtension env q)
          (getExtensions env cfg (.arr (E.map JSVal.str) props))
        = .ok false := by
    intro q hq
    rw [getExtensions_arr]
    simp only [Except.map, hasTwigifiableExtension_eq, hq]
    have : env.toLowerCase [] = ([] : Str) := toLowerCase_nil env
    rw [this]
    simp [hlow]
  refine ⟨key p, ?_⟩
  intro hpre hb1 hb2 hne
  apply key
  have hx := extname_of_no_dot pre base 0 hpre hb1 hb2 hne
  simpa using hx

/-- Witness for C16: `src/Makefile` against the default extensions. -/
theorem not_eligible_without_extension_witness :
    Except.map (hasTwigifiableExtension sampleEnv ("src/".toList ++ "Makefile".toList))
        (getExtensions sampleEnv config
          (.arr ([".twig".toList, ".html".toList].map JSVal.str) []))
      = .ok false :=
  (not_eligible_without_extension sampleEnv config [] "src/".toList "Makefile".toList
    [".twig".toList, ".html".toList] [] (by decide)).2
    (Or.inr ⟨"src".toList, rfl⟩) (by decide) (by decide) (by decide)

/-- Counterexample to C16 as stated. `Makefile` has no extension, yet it is eligible under the
extension list `['']`. -/
theorem not_eligible_without_extension_counterexample :
    extname "Makefile".toList = []
      ∧ (Except.map (hasTwigifiableExtension sampleEnv "Makefile".toList)
          (getExtensions sampleEnv config (.arr ([[]].map JSVal.str) []))).toOption = some true := by
  refine ⟨?_, ?_⟩ <;> decide

/-- C17 (amended). An eligible invocation whose `replacePaths` option is not of type
`'object'` (a string, a number, a boolean, or no option) raises no error and does not store
the option: `config.replacePaths` keeps its prior value. With `relativePath` false, the
identifier a successful `compile` then writes is the unmodified file path when that prior value
is unset or is an object none of whose keys occurs in the path. -/
theorem replacePaths_ignored_unless_object (env : Env) (cfg : Config) (params : JSVal)
    (file text : Str) (exts : List Str) (calls : List Call) (template : JSVal)
    (hext : getExtensions env cfg (getProp params "extensions".toList) = .ok exts)
    (hyes : hasTwigifiableExtension env file exts = true)
    (hprim : (getProp params "replacePaths".toList).typeof ≠ "object".toList) :
    ∃ cfg2, twigifyTransform env cfg params file = .ok (cfg2, .twigify file [])
      ∧ cfg2.replacePaths = cfg.replacePaths
      ∧ (cfg2.relativePath = false →
          (cfg.replacePaths.truthy = false
            ∨ ∃ props, cfg.replacePaths = .obj props ∧ ∀ kv ∈ props, ¬ kv.1 <:+: file) →
          tokenize env cfg2 file text = (calls, .ok template) →
          compile env cfg2 file text
            = (calls, .ok ("Twig.twig(\x7b id: \"".toList ++ file
                ++ "\", data:".toList ++ env.stringify template
                ++ ", precompiled: true, allowInlineIncludes: true \x7d)".toList))) := by
  refine ⟨_, twigifyTransform_eligible cfg params file exts hext hyes, ?_, ?_⟩
  · simp only [hprim, ↓reduceIte]
  · intro hrel hrp htok
    refine compile_id_unchanged env _ file text calls template hrel ?_ htok
    simp only [hprim, ↓reduceIte]
    exact hrp

/-- Witness for C17: the options `{ minify: false, replacePaths: "oops" }` on `/app/a.twig`
in the initial state. -/
theorem replacePaths_ignored_unless_object_witness :
    ∃ cfg2, twigifyTransform sampleEnv config
        (.obj [("minify".toList, .bool false), ("replacePaths".toList, .str "oops".toList)])
        "/app/a.twig".toList = .ok (cfg2, .twigify "/app/a.twig".toList [])
      ∧ cfg2.replacePaths = .null
      ∧ compile sampleEnv cfg2 "/app/a.twig".toList "hi".toList
          = ([Call.twig "/app/a.twig".toList "hi".toList],
              .ok ("Twig.twig(\x7b id: \"".toList ++ "/app/a.twig".toList
                ++ "\", data:".toList ++ sampleEnv.stringify (.arr [.str "hi".toList] [])
                ++ ", precompiled: true, allowInlineIncludes: true \x7d)".toList)) := by
  obtain ⟨cfg2, h0, h1, h2⟩ := replacePaths_ignored_unless_object sampleEnv config
    (.obj [("minify".toList, .bool false), ("replacePaths".toList, .str "oops".toList)])
    "/app/a.twig".toList "hi".toList [".twig".toList, ".html".toList]
    [Call.twig "/app/a.twig".toList "hi".toList] (.arr [.str "hi".toList] [])
    rfl (by decide) (by decide)
  have hc : cfg2 = { config with minify := .bool false } := by
    have h3 : twigifyTransform sampleEnv config
        (.obj [("minify".toList, .bool false), ("replacePaths".toList, .str "oops".toList)])
        "/app/a.twig".toList
        = .ok ({ config with minify := .bool false }, .twigify "/app/a.twig".toList []) := rfl
    rw [h3] at h0
    injection h0 with h0
    injection h0 with h0
    exact h0.symm
  refine ⟨cfg2, h0, h1, h2 ?_ (Or.inl rfl) ?_⟩
  · rw [hc]; rfl
  · rw [hc]; rfl

/-- Counterexample to C17 as stated. The options `{ minify: false, replacePaths: ["x"] }` on
`/v0/a.twig` give the identifier `x/a.twig`; and after an invocation with the mapping
`{"/app": "@app"}`, the options `{ replacePaths: "oops" }` on `/app/foo.twig` give the
identifier `@app/foo.twig`. Neither is the unmodified file path. -/
theorem replacePaths_ignored_unless_object_counterexample :
    ((compile sampleEnv
        (runInvocations sampleEnv config
          [(.obj [("minify".toList, .bool false),
                  ("replacePaths".toList, .arr [.str "x".toList] [])], "/v0/a.twig".toList)])
        "/v0/a.twig".toList "hi".toList).2.toOption
      = some ("Twig.twig(\x7b id: \"x/a.twig\", data:[hi], precompiled: true, allowInlineIncludes: true \x7d)".toList)
      ∧ "x/a.twig".toList ≠ "/v0/a.twig".toList)
    ∧ ((compile sampleEnv
        (runInvocations sampleEnv config
          [(.obj [("minify".toList, .bool false),
                  ("replacePaths".toList, .obj [("/app".toList, .str "@app".toList)])],
              "/lib/x.twig".toList),
           (.obj [("replacePaths".toList, .str "oops".toList)], "/app/foo.twig".toList)])
        "/app/foo.twig".toList "hi".toList).2.toOption
      = some ("Twig.twig(\x7b id: \"@app/foo.twig\", data:[hi], precompiled: true, allowInlineIncludes: true \x7d)".toList)
      ∧ "@app/foo.twig".toList ≠ "/app/foo.twig".toList) := by
  refine ⟨⟨?_, by decide⟩, ⟨?_, by decide⟩⟩ <;> decide

/-- C18. An invocation on a path that is not eligible leaves `config` exactly as it was,
whatever options come with it: the `config` it returns is the one it was given, field for
field. -/
theorem config_unchanged_of_ineligible (env : Env) (cfg : Config) (params : JSVal) (file : Str)
    (exts : List Str)
    (hext : getExtensions env cfg (getProp params "extensions".toList) = .ok exts)
    (hno : hasTwigifiableExtension env file exts = false) :
    Except.map Prod.fst (twigifyTransform env cfg params file) = .ok cfg
      ∧ runInvocations env cfg [(params, file)] = cfg := by
  have h := twigifyTransform_ineligible cfg params file exts hext hno
  refine ⟨by rw [h]; rfl, ?_⟩
  simp only [runInvocations, h]

/-- Witness for C18: `styles.css` with options for all three fields. -/
theorem config_unchanged_of_ineligible_witness :
    runInvocations sampleEnv config
      [(.obj [("minify".toList, .bool false), ("relativePath".toList, .bool true),
              ("replacePaths".toList, .obj [("/app".toList, .str "@app".toList)])],
        "styles.css".toList)] = config :=
  (config_unchanged_of_ineligible sampleEnv config
    (.obj [("minify".toList, .bool false), ("relativePath".toList, .bool true),
           ("replacePaths".toList, .obj [("/app".toList, .str "@app".toList)])])
    "styles.css".toList [".twig".toList, ".html".toList] rfl (by decide)).2

/-- C19. After any sequence of invocations from the initial state, `config.extensions` is still
`['.twig', '.html']`, so the extension list an invocation resolves, and with it the kind of
stream it returns for a file, are those it would get in the initial state. -/
theorem extensions_invariant (env : Env) (invs : List (JSVal × Str)) (params options : JSVal) (file : Str) :
    (runInvocations env config invs).extensions
        = .arr [.str ".twig".toList, .str ".html".toList] []
      ∧ getExtensions env (runInvocations env config invs) options = getExtensions env config options
      ∧ Except.map Prod.snd (twigifyTransform env (runInvocations env config invs) params file)
          = Except.map Prod.snd (twigifyTransform env config params file) := by
  have hnull : config.minify ≠ .null := by
    intro h
    cases h
  have h := (@runInvocations_invariant env invs config hnull).1
  exact ⟨h, getExtensions_congr _ _ options h, twigifyTransform_stream_congr _ _ params file h⟩

/-- C20. The minifier is called exactly when `typeof config.minify` is `'object'`. An eligible
invocation whose `minify` option is `false`, `true`, a number or a string stores that option,
and the run of its stream then calls the tokenizer alone, with the decoded text itself. After
any sequence of invocations from the initial state `config.minify` is not `null`, so it is then
a plain object or an array whenever the minifier is called, and the options the minifier gets
are never `null`. -/
theorem minify_runs_iff_object (env : Env) (cfg : Config) (params : JSVal) (file : Str)
    (exts : List Str) (chunks : List Chunk) (invs : List (JSVal × Str)) :
    ((∃ t o, Call.minify t o ∈ (Stream.run env cfg (.twigify file []) chunks).1)
        ↔ cfg.minify.typeof = "object".toList)
      ∧ (getExtensions env cfg (getProp params "extensions".toList) = .ok exts →
          hasTwigifiableExtension env file exts = true →
          getProp params "minify".toList ≠ .undefined →
          (getProp params "minify".toList).typeof ≠ "object".toList →
          ∃ cfg2, twigifyTransform env cfg params file = .ok (cfg2, .twigify file [])
            ∧ cfg2.minify = getProp params "minify".toList
            ∧ (Stream.run env cfg2 (.twigify file []) chunks).1
                = [Call.twig file (env.bufferToString chunks.flatten)])
      ∧ (runInvocations env config invs).minify ≠ .null
      ∧ (∀ t o, Call.minify t o
            ∈ (Stream.run env (runInvocations env config invs) (.twigify file []) chunks).1 →
          o ≠ .null ∧ ((∃ props, o = .obj props) ∨ ∃ items props, o = .arr items props)) := by
  have hnull0 : config.minify ≠ .null := by
    intro h
    cases h
  have hreach := (@runInvocations_invariant env invs config hnull0).2
  refine ⟨?_, ?_, hreach, ?_⟩
  · rw [run_twigify, end_calls]
    constructor
    · rintro ⟨t, o, h⟩
      exact (mem_tokenize_calls_minify env cfg file _ t o h).1
    · intro h
      exact ⟨_, _, tokenize_calls_of_object env cfg file _ h⟩
  · intro hext hyes hsup hprim
    have hne : (getProp params "minify".toList).neUndefined = true := by
      generalize getProp params "minify".toList = pm at hsup hprim
      cases pm <;> simp_all [JSVal.neUndefined, JSVal.typeof]
    refine ⟨_, twigifyTransform_eligible cfg params file exts hext hyes, ?_, ?_⟩
    · simp only [hne, ↓reduceIte]
    · rw [run_twigify, end_calls, tokenize_of_not_object]
      simp only [hne, ↓reduceIte]
      exact hprim
  · intro t o h
    rw [run_twigify, end_calls] at h
    obtain ⟨hobj, ho⟩ := mem_tokenize_calls_minify env _ file _ t o h
    rw [← ho] at hobj hreach
    refine ⟨hreach, ?_⟩
    cases o with
    | null => exact absurd rfl hreach
    | obj props => exact Or.inl ⟨props, rfl⟩
    | arr items props => exact Or.inr ⟨items, props, rfl⟩
    | undefined => simp [JSVal.typeof] at hobj
    | bool b => simp [JSVal.typeof] at hobj
    | num n => simp [JSVal.typeof] at hobj
    | str s => simp [JSVal.typeof] at hobj

/-- Witness for C20: the option `minify: true` on `a.twig`, then the text `a b`. -/
theorem minify_runs_iff_object_witness :
    ∃ cfg2, twigifyTransform sampleEnv config (.obj [("minify".toList, .bool true)]) "a.twig".toList
        = .ok (cfg2, .twigify "a.twig".toList [])
      ∧ cfg2.minify = .bool true
      ∧ (Stream.run sampleEnv cfg2 (.twigify "a.twig".toList []) [[97, 32], [98]]).1
          = [Call.twig "a.twig".toList "a b".toList] :=
  (minify_runs_iff_object sampleEnv config (.obj [("minify".toList, .bool true)])
    "a.twig".toList [".twig".toList, ".html".toList] [[97, 32], [98]] []).2.1
    rfl (by decide) (by intro h; cases h) (by decide)

end Twigify
